import Mathlib

/-!
Verification of the coreference-resolution engine in
`coreference_resolution.py` (mention extraction, name stitching,
duplicate removal, canonical ordering, cluster store, output renderer).

Numbers taken from the Python runtime are modelled as `Int`; mention
tables (`mention_dict`) are association lists from mention id to
`Mention`; operations that can raise a Python `KeyError`/`NameError`
return `Option`.
-/

/-- Mirrors the Python `Mention` class: one candidate span.  The Python
field `end` is a Lean keyword, embedded as `end_`. -/
structure Mention where
  ID : Int
  sentNum : Int
  tokenList : List String
  numTokens : Int
  begin : Int
  end_ : Int
  type : String
  clusterID : Int
deriving DecidableEq, Repr

/-- Mirrors the Python `Cluster` class: id plus member mention ids. -/
structure Cluster where
  ID : Int
  mentionList : List Int
deriving DecidableEq, Repr

/-- The Python `mention_dict` (id-keyed dictionary of mentions),
embedded as an association list; the pipeline keeps its keys unique. -/
abbrev MDict := List (Int × Mention)

/-- Python `mention_dict[k]` as a total lookup: `none` models `KeyError`. -/
def dictLookup (d : MDict) (k : Int) : Option Mention :=
  match d with
  | [] => none
  | p :: rest => if p.1 == k then some p.2 else dictLookup rest k

/-- Python dictionary assignment `mention_dict[k] = m` (update of an
existing key). -/
def dictUpdate (d : MDict) (k : Int) (m : Mention) : MDict :=
  d.map (fun p => if p.1 == k then (k, m) else p)

/-! ## Output renderer (`generate_conll`, lines 236-264)

The inner loop of `generate_conll` computes, for one token position of
one sentence, the coreference label string by folding over every entry
of `mention_dict`. -/

/-- One iteration of the `for mention_id, mention in
mention_dict.iteritems()` loop body of `generate_conll`. -/
def corefLabelStep (key : Int) (token_idx : Int) (corefLabel : String)
    (mention : Mention) : String :=
  if mention.sentNum == key then
    let corefLabel :=
      if token_idx == mention.begin then
        (if corefLabel ≠ "" then corefLabel ++ "|" else corefLabel) ++ "("
      else corefLabel
    let corefLabel :=
      if mention.begin ≤ token_idx ∧ token_idx < mention.end_ then
        (if corefLabel ≠ "" ∧ corefLabel.back ≠ '(' then corefLabel ++ "|"
         else corefLabel) ++ toString mention.clusterID
      else corefLabel
    if token_idx + 1 == mention.end_ then corefLabel ++ ")" else corefLabel
  else corefLabel

/-- The complete label for one token: fold the loop body over the
mention table, then replace an empty label by the dash placeholder. -/
def corefLabelFor (mention_dict : MDict) (key : Int) (token_idx : Int) : String :=
  let lbl := mention_dict.foldl (fun acc p => corefLabelStep key token_idx acc p.2) ""
  if lbl = "" then "-" else lbl

/-- The per-sentence label column of `generate_conll`: one label per
token of the sentence (`for token_idx, token in enumerate(...)`); the
label depends only on the token index, as in the source. -/
def generate_conll_labels (mention_dict : MDict) (key : Int)
    (tokens : List String) : List String :=
  tokens.enum.map (fun p => corefLabelFor mention_dict key (Int.ofNat p.1))

/-! ### Claim C1 -/

/-- The single stitched Name mention of the C1 scenario: sentence 0,
span `[0,2)`, cluster 7. -/
def c1Mention : Mention :=
  { ID := 0, sentNum := 0, tokenList := ["John", "Smith"], numTokens := 2,
    begin := 0, end_ := 2, type := "Name", clusterID := 7 }

/-- The C1 mention table: exactly one mention. -/
def c1Dict : MDict := [(0, c1Mention)]

/-- The C1 sentence tokens. -/
def c1Tokens : List String := ["John", "Smith", "left", "."]

/-- Claim C1 is false on the code: for the four-token sentence with one
mention spanning `[0,2)` in cluster 7, the renderer does not emit
`["(7)", "-", "-", "-"]` (token 0 gets `"(7"` and token 1 gets `"7)"`,
since the mention covers two tokens). -/
theorem c1_counterexample :
    generate_conll_labels c1Dict 0 c1Tokens ≠ ["(7)", "-", "-", "-"] := by
  decide

/-- Claim C1 (amended): for the single-sentence document with tokens
`["John","Smith","left","."]` and exactly one mention with span `[0,2)`
and cluster id 7, the renderer emits `"(7"` for token 0 (opening
bracket plus cluster id, no closing bracket since token 0 is not the
last token of the mention), `"7)"` for token 1 (cluster id plus closing
bracket, since `token_idx + 1 == end`), and `"-"` for tokens 2 and 3. -/
theorem c1_labels :
    generate_conll_labels c1Dict 0 c1Tokens = ["(7", "7)", "-", "-"] := by
  decide

/-! ## Duplicate removal (`remove_duplicates`, lines 97-112) -/

/-- The triple `(sentNum, begin, end)` the duplicate check compares,
read from the mention table (`none` models a `KeyError`). -/
def dupKey (d : MDict) (x : Int) : Option (Int × Int × Int) :=
  (dictLookup d x).map (fun m => (m.sentNum, m.begin, m.end_))

/-- The `remove_ids` list built by the double loop of
`remove_duplicates`: position `i` contributes its id when some later
position `j` (the Python `range(i+1, len(...))`) carries the same
`(sentNum, begin, end)` triple. -/
def duplicate_remove_ids (mention_id_list : List Int) (mention_dict : MDict) : List Int :=
  (List.range mention_id_list.length).filterMap (fun i =>
    if (List.range' (i + 1) (mention_id_list.length - (i + 1))).any (fun j =>
        decide (dupKey mention_dict (mention_id_list.getD j 0) =
                dupKey mention_dict (mention_id_list.getD i 0)))
    then some (mention_id_list.getD i 0) else none)

/-- Function `remove_duplicates`: collect `remove_ids`, then delete each of them
from the id list (`list.remove`, first occurrence) and from the mention
table (`del mention_dict[id]`). -/
def remove_duplicates (mention_id_list : List Int) (mention_dict : MDict) :
    List Int × MDict :=
  let remove_ids := duplicate_remove_ids mention_id_list mention_dict
  (remove_ids.foldl (fun acc rid => acc.erase rid) mention_id_list,
   remove_ids.foldl (fun acc rid => acc.eraseP (fun p => p.1 == rid)) mention_dict)

theorem mem_duplicate_remove_ids {l : List Int} {d : MDict} {x : Int} :
    x ∈ duplicate_remove_ids l d ↔
      ∃ i, i < l.length ∧
        (∃ j, i < j ∧ j < l.length ∧
          dupKey d (l.getD j 0) = dupKey d (l.getD i 0)) ∧
        x = l.getD i 0 := by
  unfold duplicate_remove_ids
  rw [List.mem_filterMap]
  constructor
  · rintro ⟨i, hi, hx⟩
    rw [List.mem_range] at hi
    split at hx
    · rename_i hany
      rw [List.any_eq_true] at hany
      obtain ⟨j, hj, hkey⟩ := hany
      rw [List.mem_range'] at hj
      obtain ⟨k, hk, rfl⟩ := hj
      refine ⟨i, hi, ⟨i + 1 + 1 * k, by omega, by omega, ?_⟩, by
        cases hx; rfl⟩
      exact of_decide_eq_true hkey
    · cases hx
  · rintro ⟨i, hi, ⟨j, hij, hj, hkey⟩, rfl⟩
    refine ⟨i, List.mem_range.mpr hi, ?_⟩
    have hany : (List.range' (i + 1) (l.length - (i + 1))).any (fun j =>
        decide (dupKey d (l.getD j 0) = dupKey d (l.getD i 0))) = true := by
      rw [List.any_eq_true]
      exact ⟨j, List.mem_range'.mpr ⟨j - (i + 1), by omega, by omega⟩,
        decide_eq_true hkey⟩
    rw [if_pos hany]

theorem foldl_erase_eq_filter (ids : List Int) :
    ∀ l : List Int, l.Nodup →
      ids.foldl (fun acc rid => acc.erase rid) l
        = l.filter (fun x => !(ids.contains x)) := by
  induction ids with
  | nil => intro l _; simp
  | cons a ids ih =>
    intro l hl
    simp only [List.foldl_cons]
    rw [List.Nodup.erase_eq_filter hl, ih _ (hl.filter _), List.filter_filter]
    apply List.filter_congr
    intro x _
    simp only [List.contains_cons, Bool.not_or, bne]
    exact Bool.and_comm _ _

theorem erasePKey_eq_filter (k : Int) :
    ∀ d : MDict, (d.map Prod.fst).Nodup →
      d.eraseP (fun p => p.1 == k) = d.filter (fun p => p.1 != k) := by
  intro d hd
  induction d with
  | nil => rfl
  | cons p d ih =>
    simp only [List.map_cons, List.nodup_cons] at hd
    by_cases h : p.1 = k
    · rw [List.eraseP_cons_of_pos (by simp [h]),
        List.filter_cons_of_neg (by simp [h])]
      refine (List.filter_eq_self.mpr ?_).symm
      intro q hq
      simp only [bne_iff_ne, ne_eq]
      intro hqk
      have : q.1 ∈ List.map Prod.fst d := List.mem_map_of_mem Prod.fst hq
      rw [hqk, ← h] at this
      exact hd.1 this
    · rw [List.eraseP_cons_of_neg (by simp [h]),
        List.filter_cons_of_pos (by simp [h]), ih hd.2]

theorem foldl_erasePKey_eq_filter (ids : List Int) :
    ∀ d : MDict, (d.map Prod.fst).Nodup →
      ids.foldl (fun acc rid => acc.eraseP (fun p => p.1 == rid)) d
        = d.filter (fun p => !(ids.contains p.1)) := by
  induction ids with
  | nil => intro d _; simp
  | cons a ids ih =>
    intro d hd
    simp only [List.foldl_cons]
    rw [erasePKey_eq_filter a d hd, ih _ ?nodup, List.filter_filter]
    case nodup =>
      exact ((List.filter_sublist d).map Prod.fst).nodup hd
    apply List.filter_congr
    intro p _
    simp only [List.contains_cons, Bool.not_or, bne]
    exact Bool.and_comm _ _

/-- Claim C3 is false on the code: when two mentions share the triple,
the code removes the *first*-encountered one (id 10) and keeps the
*last* (id 11), in both the id list and the table. -/
def c3MentionA : Mention :=
  { ID := 10, sentNum := 0, tokenList := ["de", "man"], numTokens := 2,
    begin := 0, end_ := 2, type := "NP", clusterID := -1 }

/-- The later duplicate of `c3MentionA` (same span triple, other type). -/
def c3MentionB : Mention := { c3MentionA with ID := 11, type := "MWU" }

/-- The C3 mention table: two mentions with identical `(sentNum, begin, end)`. -/
def c3Dict : MDict := [(10, c3MentionA), (11, c3MentionB)]

/-- Claim C3 counterexample: for ids `[10, 11]` with identical span
triples, the survivor is `11` — the one encountered *last* — and the
first-encountered mention `10` is discarded, contradicting the claim
that the first is kept. -/
theorem c3_counterexample :
    (remove_duplicates [10, 11] c3Dict).1 = [11] ∧
      (10 : Int) ∉ (remove_duplicates [10, 11] c3Dict).1 ∧
      (remove_duplicates [10, 11] c3Dict).2 = [(11, c3MentionB)] := by
  decide

/-- Claim C3 (amended): for every mention list (distinct ids, table
keyed exactly by the list), an id at position `i` survives duplicate
removal iff no *later* position carries the same `(sentNum, begin, end)`
triple — of each duplicate group exactly the one encountered *last* in
extraction order is kept — and the surviving table keys are exactly the
surviving list ids. -/
theorem c3_remove_duplicates_keeps_last (l : List Int) (d : MDict)
    (hN : l.Nodup) (hK : d.map Prod.fst = l) :
    (∀ i, i < l.length →
      ((l.getD i 0 ∈ (remove_duplicates l d).1) ↔
        ∀ j, i < j → j < l.length →
          dupKey d (l.getD j 0) ≠ dupKey d (l.getD i 0)))
    ∧ ((remove_duplicates l d).2).map Prod.fst = (remove_duplicates l d).1 := by
  have hKN : (d.map Prod.fst).Nodup := hK ▸ hN
  have h1 : (remove_duplicates l d).1
      = l.filter (fun x => !((duplicate_remove_ids l d).contains x)) :=
    foldl_erase_eq_filter _ l hN
  have h2 : (remove_duplicates l d).2
      = d.filter (fun p => !((duplicate_remove_ids l d).contains p.1)) :=
    foldl_erasePKey_eq_filter _ d hKN
  constructor
  · intro i hi
    rw [h1, List.mem_filter]
    have hmem : l.getD i 0 ∈ l := by
      rw [List.getD_eq_getElem?_getD, List.getElem?_eq_getElem hi]
      exact List.getElem_mem hi
    constructor
    · rintro ⟨-, hnc⟩ j hij hj hdup
      have hnc' : l.getD i 0 ∉ duplicate_remove_ids l d := by
        simpa [List.contains] using hnc
      exact hnc' (mem_duplicate_remove_ids.mpr ⟨i, hi, ⟨j, hij, hj, hdup⟩, rfl⟩)
    · intro hnodup
      refine ⟨hmem, ?_⟩
      have hshape : ∀ x : Int, x ∉ duplicate_remove_ids l d →
          (!((duplicate_remove_ids l d).contains x)) = true := by
        intro x hx; simpa [List.contains] using hx
      apply hshape
      intro hcon
      obtain ⟨i', hi', ⟨j, hij, hj, hdup⟩, heq⟩ := mem_duplicate_remove_ids.mp hcon
      have : i' = i := by
        have hgi : l.getD i 0 = l[i] := by
          rw [List.getD_eq_getElem?_getD, List.getElem?_eq_getElem hi]; rfl
        have hgi' : l.getD i' 0 = l[i'] := by
          rw [List.getD_eq_getElem?_getD, List.getElem?_eq_getElem hi']; rfl
        exact (List.Nodup.getElem_inj_iff hN).mp (by rw [← hgi, ← hgi', ← heq])
      subst this
      exact hnodup j hij hj hdup
  · rw [h1, h2, ← hK, List.filter_map]
    rfl

/-- Claim C3 witness: instantiating the amended theorem on the concrete
two-mention table shows the first-encountered duplicate id 10 is
discarded while the table keys match the surviving list. -/
theorem c3_keeps_last_witness :
    (10 : Int) ∉ (remove_duplicates [10, 11] c3Dict).1 ∧
      ((remove_duplicates [10, 11] c3Dict).2).map Prod.fst
        = (remove_duplicates [10, 11] c3Dict).1 := by
  have h := c3_remove_duplicates_keeps_last [10, 11] c3Dict (by decide) (by decide)
  refine ⟨fun hmem => ?_, h.2⟩
  have h0 := (h.1 0 (by decide)).mp hmem 1 (by decide) (by decide)
  exact h0 (by decide)

/-! ## Canonical ordering (`sort_mentions`, lines 115-116) -/

/-- The Python sort key `(mention_dict[x].sentNum, .begin, .end)`.  The
`(0, 0, 0)` default models nothing reachable: a missing id raises
`KeyError` in the source, and `sort_mentions` guards on key presence. -/
def sortKey (d : MDict) (x : Int) : Int × Int × Int :=
  match dictLookup d x with
  | some m => (m.sentNum, m.begin, m.end_)
  | none => (0, 0, 0)

/-- Python tuple comparison `<=` on the 3-component sort keys
(lexicographic). -/
def tupLe (p q : Int × Int × Int) : Prop :=
  p.1 < q.1 ∨ (p.1 = q.1 ∧ (p.2.1 < q.2.1 ∨ (p.2.1 = q.2.1 ∧ p.2.2 ≤ q.2.2)))

/-- Python tuple comparison `<` on the 3-component sort keys. -/
def tupLt (p q : Int × Int × Int) : Prop :=
  p.1 < q.1 ∨ (p.1 = q.1 ∧ (p.2.1 < q.2.1 ∨ (p.2.1 = q.2.1 ∧ p.2.2 < q.2.2)))

instance : DecidableRel tupLe := fun p q => by unfold tupLe; infer_instance

instance : DecidableRel tupLt := fun p q => by unfold tupLt; infer_instance

/-- The comparison `sorted` effectively uses on two ids. -/
def mentionLe (d : MDict) (x y : Int) : Prop := tupLe (sortKey d x) (sortKey d y)

instance (d : MDict) : DecidableRel (mentionLe d) :=
  fun x y => inferInstanceAs (Decidable (tupLe _ _))

/-- Function `sort_mentions`: Python's stable `sorted` by the key triple,
modelled by (stable) insertion sort; `none` models the `KeyError` on an
id absent from the table. -/
def sort_mentions (mention_id_list : List Int) (mention_dict : MDict) :
    Option (List Int) :=
  if mention_id_list.all (fun x => (dictLookup mention_dict x).isSome) then
    some (List.insertionSort (mentionLe mention_dict) mention_id_list)
  else none

/-- Strict canonical order on ids: ascending key triple, ties broken by
ascending id. -/
def keyLt (d : MDict) (x y : Int) : Prop :=
  tupLt (sortKey d x) (sortKey d y) ∨ (sortKey d x = sortKey d y ∧ x < y)

theorem tupLe_cases {p q : Int × Int × Int} (h : tupLe p q) : tupLt p q ∨ p = q := by
  obtain ⟨p1, p2, p3⟩ := p
  obtain ⟨q1, q2, q3⟩ := q
  simp only [tupLe, tupLt, Prod.mk.injEq] at *
  omega

theorem tupLt_of_not_tupLe {p q : Int × Int × Int} (h : ¬tupLe p q) : tupLt q p := by
  obtain ⟨p1, p2, p3⟩ := p
  obtain ⟨q1, q2, q3⟩ := q
  simp only [tupLe, tupLt] at *
  omega

theorem keyLt_of_tupLe_lt {d : MDict} {x y : Int}
    (h : tupLe (sortKey d x) (sortKey d y)) (hxy : x < y) : keyLt d x y := by
  rcases tupLe_cases h with h' | h'
  · exact Or.inl h'
  · exact Or.inr ⟨h', hxy⟩

theorem keyLt_trans_of_tupLe {d : MDict} {x y z : Int}
    (h1 : tupLe (sortKey d x) (sortKey d y)) (h2 : keyLt d y z) (hxz : x < z) :
    keyLt d x z := by
  apply keyLt_of_tupLe_lt ?_ hxz
  have h2' : tupLe (sortKey d y) (sortKey d z) := by
    rcases h2 with h | ⟨h, -⟩
    · revert h
      generalize sortKey d y = p
      generalize sortKey d z = q
      obtain ⟨p1, p2, p3⟩ := p
      obtain ⟨q1, q2, q3⟩ := q
      simp only [tupLe, tupLt]
      omega
    · rw [h]
      generalize sortKey d z = q
      obtain ⟨q1, q2, q3⟩ := q
      simp [tupLe]
  revert h1 h2'
  generalize sortKey d x = p
  generalize sortKey d y = q
  generalize sortKey d z = r
  obtain ⟨p1, p2, p3⟩ := p
  obtain ⟨q1, q2, q3⟩ := q
  obtain ⟨r1, r2, r3⟩ := r
  simp only [tupLe]
  omega

theorem orderedInsert_keyLt (d : MDict) (x : Int) :
    ∀ L : List Int, L.Pairwise (keyLt d) → (∀ y ∈ L, x < y) →
      (List.orderedInsert (mentionLe d) x L).Pairwise (keyLt d) := by
  intro L
  induction L with
  | nil => intro _ _; simp [List.orderedInsert]
  | cons y L' ih =>
    intro hp hlt
    rw [List.pairwise_cons] at hp
    simp only [List.orderedInsert]
    split
    · rename_i hr
      rw [List.pairwise_cons]
      refine ⟨?_, List.pairwise_cons.mpr hp⟩
      intro z hz
      rcases List.mem_cons.mp hz with rfl | hz'
      · exact keyLt_of_tupLe_lt hr (hlt z (List.mem_cons_self _ _))
      · exact keyLt_trans_of_tupLe hr (hp.1 z hz') (hlt z (List.mem_cons_of_mem _ hz'))
    · rename_i hr
      rw [List.pairwise_cons]
      constructor
      · intro z hz
        rcases (List.mem_orderedInsert _).mp hz with rfl | hz'
        · exact Or.inl (tupLt_of_not_tupLe hr)
        · exact hp.1 z hz'
      · exact ih hp.2 (fun z hz => hlt z (List.mem_cons_of_mem _ hz))

theorem insertionSort_keyLt (d : MDict) :
    ∀ l : List Int, l.Pairwise (· < ·) →
      (List.insertionSort (mentionLe d) l).Pairwise (keyLt d) := by
  intro l
  induction l with
  | nil => intro _; simp [List.insertionSort]
  | cons x xs ih =>
    intro hp
    rw [List.pairwise_cons] at hp
    simp only [List.insertionSort]
    apply orderedInsert_keyLt d x _ (ih hp.2)
    intro y hy
    exact hp.1 y ((List.perm_insertionSort (mentionLe d) xs).mem_iff.mp hy)

/-- Claim C8: on input as produced by extraction (ids in ascending
extraction order, all present in the table), `sort_mentions` returns a
permutation of the input ids sorted in ascending lexicographic order of
`(sentNum, begin, end)` with ties broken by ascending id, and running
it twice on identical input trivially yields identical output. -/
theorem c8_sort_mentions_canonical (l : List Int) (d : MDict)
    (hAsc : l.Pairwise (· < ·))
    (hKeys : ∀ x ∈ l, (dictLookup d x).isSome) :
    ∃ out, sort_mentions l d = some out ∧ out.Perm l ∧ out.Pairwise (keyLt d)
      ∧ sort_mentions l d = sort_mentions l d := by
  refine ⟨List.insertionSort (mentionLe d) l, ?_, List.perm_insertionSort _ l,
    insertionSort_keyLt d l hAsc, rfl⟩
  unfold sort_mentions
  rw [if_pos (List.all_eq_true.mpr (fun x hx => hKeys x hx))]

/-- A two-mention table for exercising `sort_mentions`: mention 1 sits
earlier in the sentence than mention 0. -/
def c8Dict : MDict :=
  [(0, { ID := 0, sentNum := 0, tokenList := ["man"], numTokens := 1,
         begin := 3, end_ := 4, type := "NP", clusterID := -1 }),
   (1, { ID := 1, sentNum := 0, tokenList := ["hij"], numTokens := 1,
         begin := 0, end_ := 1, type := "Pronoun", clusterID := -1 })]

/-- Claim C8 witness: the canonical-order theorem applied to a concrete
two-mention input (ids `[0, 1]`, the second mention earlier in the
sentence), whose sorted output must put id 1 first. -/
theorem c8_witness :
    ∃ out, sort_mentions [0, 1] c8Dict = some out ∧ out.Perm [0, 1] ∧
      out.Pairwise (keyLt c8Dict) ∧
      sort_mentions [0, 1] c8Dict = sort_mentions [0, 1] c8Dict :=
  c8_sort_mentions_canonical [0, 1] c8Dict (by decide)
    (by intro x hx; fin_cases hx <;> decide)

/-! ## Cluster store (`initialize_clusters`, lines 226-233, and
`mergeClustersByMentionIDs`, lines 267-284) -/

/-- The shared pipeline state: the global `mention_dict` and
`cluster_list` that the cluster operations mutate. -/
structure CorefState where
  mention_dict : MDict
  cluster_list : List Cluster
deriving DecidableEq, Repr

/-- Function `initialize_clusters`: one singleton cluster per mention, the
cluster id reusing the mention's `ID`, and each mention's `clusterID`
set to its cluster's id. -/
def initialize_clusters (mention_dict : MDict) : CorefState :=
  { mention_dict := mention_dict.map (fun p => (p.1, { p.2 with clusterID := p.2.ID })),
    cluster_list := mention_dict.map (fun p => { ID := p.2.ID, mentionList := [p.2.ID] }) }

/-- The `for idx, cluster in enumerate(cluster_list)` scan of
`mergeClustersByMentionIDs`: the loop keeps reassigning on every match,
so it binds the *last* matching cluster and its index; `none` models the
`NameError` raised downstream when no cluster ever matched. -/
def findClusterByID (cid : Int) : List Cluster → Option (Cluster × Nat)
  | [] => none
  | c :: rest =>
    match findClusterByID cid rest with
    | some r => some (r.1, r.2 + 1)
    | none => if cid == c.ID then some (c, 0) else none

/-- The inner `for mentionID in cluster2.mentionList: ... for
mention_id, mention in mention_dict.iteritems(): if mention.ID ==
mentionID: mention.clusterID = cluster1.ID` loop nest of the merge: a
mention is retargeted to `cluster1.ID` exactly when its `ID` is one of
the moved ids. -/
def movedUpdate (cluster1 cluster2 : Cluster) (mention : Mention) : Mention :=
  if mention.ID ∈ cluster2.mentionList then
    { mention with clusterID := cluster1.ID }
  else mention

/-- The in-place growth of the cluster bound as `cluster1`
(`cluster1.mentionList.append(mentionID)` for each moved id): the
cluster whose `ID` is `mention1.clusterID` receives all of `cluster2`'s
members. -/
def survivorUpdate (cid1 : Int) (cluster2 : Cluster) (c : Cluster) : Cluster :=
  if cid1 == c.ID then
    { c with mentionList := c.mentionList ++ cluster2.mentionList }
  else c

/-- Function `mergeClustersByMentionIDs`: no-op when both mentions share a
cluster id; otherwise move every member of `cluster2` into `cluster1`,
retarget the moved mentions' `clusterID`, and delete `cluster2` by its
index (`del cluster_list[cluster2_idx]`). -/
def mergeClustersByMentionIDs (idx1 idx2 : Int) (s : CorefState) : Option CorefState :=
  match dictLookup s.mention_dict idx1, dictLookup s.mention_dict idx2 with
  | some mention1, some mention2 =>
    if mention1.clusterID == mention2.clusterID then some s
    else
      match findClusterByID mention1.clusterID s.cluster_list,
            findClusterByID mention2.clusterID s.cluster_list with
      | some (cluster1, _), some (cluster2, cluster2_idx) =>
        some { mention_dict := s.mention_dict.map (fun p =>
                 (p.1, movedUpdate cluster1 cluster2 p.2)),
               cluster_list := (s.cluster_list.map
                 (survivorUpdate mention1.clusterID cluster2)).eraseIdx cluster2_idx }
      | _, _ => none
  | _, _ => none

/-- A sequence of merge requests applied in order (the sieves interact
with the cluster store only through such calls). -/
def applyMerges : List (Int × Int) → CorefState → Option CorefState
  | [], s => some s
  | ab :: rest, s =>
    match mergeClustersByMentionIDs ab.1 ab.2 s with
    | some s' => applyMerges rest s'
    | none => none

/-- Well-formedness and partition invariant of the cluster store:
unique dictionary keys that equal the stored `ID`s, unique cluster ids,
non-empty clusters whose members are dictionary keys, every mention
covered by a cluster, and `clusterID` agreeing with membership. -/
def StoreInv (s : CorefState) : Prop :=
  (s.mention_dict.map Prod.fst).Nodup ∧
  (∀ p ∈ s.mention_dict, p.2.ID = p.1) ∧
  (s.cluster_list.map Cluster.ID).Nodup ∧
  (∀ c ∈ s.cluster_list, c.mentionList ≠ []) ∧
  (∀ c ∈ s.cluster_list, ∀ mid ∈ c.mentionList, mid ∈ s.mention_dict.map Prod.fst) ∧
  (∀ p ∈ s.mention_dict, ∃ c ∈ s.cluster_list, p.1 ∈ c.mentionList) ∧
  (∀ p ∈ s.mention_dict, ∀ c ∈ s.cluster_list,
    (p.1 ∈ c.mentionList ↔ p.2.clusterID = c.ID))

instance (s : CorefState) : Decidable (StoreInv s) := by
  unfold StoreInv; infer_instance

/-- The partition property of claim C2: every mention id lies in exactly
one live cluster, clusters are non-empty, the union of the members of
the live clusters is exactly the mention id set, and each mention's
`clusterID` is the id of the cluster containing it. -/
def PartitionOK (s : CorefState) : Prop :=
  (∀ k ∈ s.mention_dict.map Prod.fst, ∃ c ∈ s.cluster_list, k ∈ c.mentionList ∧
      ∀ c' ∈ s.cluster_list, k ∈ c'.mentionList → c' = c) ∧
  (∀ c ∈ s.cluster_list, c.mentionList ≠ []) ∧
  (∀ c ∈ s.cluster_list, ∀ mid ∈ c.mentionList, mid ∈ s.mention_dict.map Prod.fst) ∧
  (∀ p ∈ s.mention_dict, ∀ c ∈ s.cluster_list,
    p.1 ∈ c.mentionList → p.2.clusterID = c.ID)

instance (s : CorefState) : Decidable (PartitionOK s) := by
  unfold PartitionOK; infer_instance

theorem dictLookup_mem {d : MDict} {k : Int} {m : Mention}
    (h : dictLookup d k = some m) : (k, m) ∈ d := by
  induction d with
  | nil => cases h
  | cons p d ih =>
    unfold dictLookup at h
    split at h
    · rename_i hb
      have hk : p.1 = k := by simpa using hb
      have hm : p.2 = m := by cases h; rfl
      rw [← hk, ← hm]
      exact List.mem_cons_self _ _
    · exact List.mem_cons_of_mem _ (ih h)

theorem dictLookup_of_mem {d : MDict} (hN : (d.map Prod.fst).Nodup)
    {k : Int} {m : Mention} (h : (k, m) ∈ d) : dictLookup d k = some m := by
  induction d with
  | nil => cases h
  | cons p d ih =>
    simp only [List.map_cons, List.nodup_cons] at hN
    rcases List.mem_cons.mp h with rfl | h'
    · unfold dictLookup
      rw [if_pos (by simp)]
    · have hk : p.1 ≠ k := fun hk =>
        hN.1 (hk ▸ List.mem_map_of_mem Prod.fst h')
      unfold dictLookup
      rw [if_neg (by simpa using hk)]
      exact ih hN.2 h'

theorem dictLookup_mapValues (h : Mention → Mention) (d : MDict) (k : Int) :
    dictLookup (d.map (fun p => (p.1, h p.2))) k = (dictLookup d k).map h := by
  induction d with
  | nil => rfl
  | cons p d ih =>
    by_cases hk : p.1 = k
    · simp [dictLookup, hk]
    · simp only [List.map_cons, dictLookup]
      rw [if_neg (by simpa using hk), if_neg (by simpa using hk)]
      exact ih

theorem dictLookup_isSome_iff {d : MDict} {k : Int} :
    (dictLookup d k).isSome ↔ k ∈ d.map Prod.fst := by
  induction d with
  | nil => simp [dictLookup]
  | cons p d ih =>
    by_cases hk : p.1 = k
    · simp [dictLookup, hk]
    · simp only [List.map_cons, dictLookup, List.mem_cons]
      rw [if_neg (by simpa using hk)]
      rw [ih]
      constructor
      · exact Or.inr
      · rintro (rfl | h)
        · exact absurd rfl hk
        · exact h

theorem mapValues_keys (h : Mention → Mention) (d : MDict) :
    (d.map (fun p => (p.1, h p.2))).map Prod.fst = d.map Prod.fst := by
  rw [List.map_map]
  rfl

theorem findClusterByID_spec {cid : Int} :
    ∀ {cl : List Cluster} {c : Cluster} {i : Nat},
      findClusterByID cid cl = some (c, i) →
        ∃ h : i < cl.length, cl.get ⟨i, h⟩ = c ∧ c.ID = cid := by
  intro cl
  induction cl with
  | nil => intro c i h; cases h
  | cons c0 rest ih =>
    intro c i h
    unfold findClusterByID at h
    cases hr : findClusterByID cid rest with
    | some r =>
      rw [hr] at h
      obtain ⟨hc, hi⟩ : r.1 = c ∧ r.2 + 1 = i := by
        simpa [Prod.ext_iff] using h
      subst hc
      subst hi
      obtain ⟨hb, hg, hcid⟩ := ih (c := r.1) (i := r.2) (by rw [← hr])
      exact ⟨Nat.succ_lt_succ hb, hg, hcid⟩
    | none =>
      rw [hr] at h
      dsimp only at h
      split at h
      · rename_i hbeq
        obtain ⟨hc, hi⟩ : c0 = c ∧ 0 = i := by
          simpa [Prod.ext_iff] using h
        subst hc
        subst hi
        exact ⟨Nat.succ_pos _, rfl, (by simpa using hbeq : cid = c0.ID).symm⟩
      · cases h

theorem findClusterByID_isSome {cid : Int} :
    ∀ {cl : List Cluster}, (∃ c ∈ cl, c.ID = cid) →
      (findClusterByID cid cl).isSome := by
  intro cl
  induction cl with
  | nil => rintro ⟨c, hc, -⟩; cases hc
  | cons c0 rest ih =>
    rintro ⟨c, hc, hcid⟩
    unfold findClusterByID
    cases hr : findClusterByID cid rest with
    | some r => simp
    | none =>
      rcases List.mem_cons.mp hc with rfl | hc'
      · rw [if_pos (by simpa using hcid.symm)]
        simp
      · have := ih ⟨c, hc', hcid⟩
        rw [hr] at this
        cases this

theorem mem_eraseIdx_nodup {l : List Cluster} (hN : l.Nodup) {i : Nat}
    (hi : i < l.length) (x : Cluster) :
    x ∈ l.eraseIdx i ↔ (x ∈ l ∧ x ≠ l.get ⟨i, hi⟩) := by
  induction l generalizing i with
  | nil => cases hi
  | cons c rest ih =>
    rw [List.nodup_cons] at hN
    cases i with
    | zero =>
      simp only [List.eraseIdx, List.get]
      constructor
      · intro hx
        refine ⟨List.mem_cons_of_mem _ hx, ?_⟩
        rintro rfl
        exact hN.1 hx
      · rintro ⟨hx, hne⟩
        rcases List.mem_cons.mp hx with rfl | hx'
        · exact absurd rfl hne
        · exact hx'
    | succ j =>
      have hj : j < rest.length := Nat.lt_of_succ_lt_succ hi
      simp only [List.eraseIdx, List.mem_cons, List.get]
      rw [ih hN.2 hj]
      constructor
      · rintro (rfl | ⟨hx, hne⟩)
        · refine ⟨Or.inl rfl, ?_⟩
          intro heq
          apply hN.1
          rw [heq]
          exact List.get_mem _ _ _
        · exact ⟨Or.inr hx, hne⟩
      · rintro ⟨rfl | hx, hne⟩
        · exact Or.inl rfl
        · exact Or.inr ⟨hx, hne⟩

theorem movedUpdate_ID (c1 c2 : Cluster) (m : Mention) :
    (movedUpdate c1 c2 m).ID = m.ID := by
  unfold movedUpdate
  split <;> rfl

theorem survivorUpdate_ID (cid1 : Int) (c2 c : Cluster) :
    (survivorUpdate cid1 c2 c).ID = c.ID := by
  unfold survivorUpdate
  split <;> rfl

theorem cluster_eq_of_id {cl : List Cluster} (hN : (cl.map Cluster.ID).Nodup)
    {c c' : Cluster} (hc : c ∈ cl) (hc' : c' ∈ cl) (h : c.ID = c'.ID) : c = c' :=
  List.inj_on_of_nodup_map hN hc hc' h

/-- Full effect of a merge of mentions in distinct clusters: the two
matched clusters exist, the mention table is re-targeted through
`movedUpdate`, and the new cluster list holds the grown survivor plus
every untouched cluster, one cluster shorter, with ids still unique. -/
theorem merge_diff_spec {s s' : CorefState} (hInv : StoreInv s) {a b : Int}
    {m1 m2 : Mention}
    (h1 : dictLookup s.mention_dict a = some m1)
    (h2 : dictLookup s.mention_dict b = some m2)
    (hne : m1.clusterID ≠ m2.clusterID)
    (hm : mergeClustersByMentionIDs a b s = some s') :
    ∃ c1 c2 : Cluster,
      c1 ∈ s.cluster_list ∧ c2 ∈ s.cluster_list ∧
      c1.ID = m1.clusterID ∧ c2.ID = m2.clusterID ∧
      a ∈ c1.mentionList ∧ b ∈ c2.mentionList ∧
      s'.mention_dict = s.mention_dict.map (fun p =>
        (p.1, movedUpdate c1 c2 p.2)) ∧
      (∀ x : Cluster, x ∈ s'.cluster_list ↔
        (x = { c1 with mentionList := c1.mentionList ++ c2.mentionList } ∨
         (x ∈ s.cluster_list ∧ x ≠ c1 ∧ x ≠ c2))) ∧
      s'.cluster_list.length + 1 = s.cluster_list.length ∧
      (s'.cluster_list.map Cluster.ID).Nodup := by
  obtain ⟨hKeys, hIDk, hCID, hNEm, hMem, hCov, hLink⟩ := hInv
  unfold mergeClustersByMentionIDs at hm
  rw [h1, h2] at hm
  dsimp only at hm
  rw [if_neg (by simpa using hne)] at hm
  cases hr1 : findClusterByID m1.clusterID s.cluster_list with
  | none => rw [hr1] at hm; dsimp only at hm; cases hm
  | some r1 =>
    cases hr2 : findClusterByID m2.clusterID s.cluster_list with
    | none => rw [hr1, hr2] at hm; dsimp only at hm; cases hm
    | some r2 =>
      obtain ⟨c1, i1⟩ := r1
      obtain ⟨c2, i2⟩ := r2
      rw [hr1, hr2] at hm
      dsimp only at hm
      obtain ⟨hb1, hg1, hcid1⟩ := findClusterByID_spec hr1
      obtain ⟨hb2, hg2, hcid2⟩ := findClusterByID_spec hr2
      have hc1 : c1 ∈ s.cluster_list := hg1 ▸ List.get_mem _ _ _
      have hc2 : c2 ∈ s.cluster_list := hg2 ▸ List.get_mem _ _ _
      have hain : a ∈ c1.mentionList :=
        (hLink (a, m1) (dictLookup_mem h1) c1 hc1).mpr hcid1.symm
      have hbin : b ∈ c2.mentionList :=
        (hLink (b, m2) (dictLookup_mem h2) c2 hc2).mpr hcid2.symm
      -- shape of the new cluster list
      have hfID : ∀ c, (survivorUpdate m1.clusterID c2 c).ID = c.ID :=
        survivorUpdate_ID m1.clusterID c2
      have hmapID : (s.cluster_list.map (survivorUpdate m1.clusterID c2)).map Cluster.ID
          = s.cluster_list.map Cluster.ID := by
        rw [List.map_map]
        exact List.map_congr_left (fun c _ => hfID c)
      have hNf : (s.cluster_list.map (survivorUpdate m1.clusterID c2)).Nodup :=
        List.Nodup.of_map Cluster.ID (hmapID ▸ hCID)
      have hi2' : i2 < (s.cluster_list.map (survivorUpdate m1.clusterID c2)).length := by
        rw [List.length_map]; exact hb2
      have hfc2 : survivorUpdate m1.clusterID c2 c2 = c2 := by
        unfold survivorUpdate
        rw [if_neg]
        simp only [beq_iff_eq]
        rw [hcid2]
        exact hne
      have hget2 : (s.cluster_list.map (survivorUpdate m1.clusterID c2)).get ⟨i2, hi2'⟩
          = c2 := by
        rw [List.get_map]
        rw [show s.cluster_list.get ⟨i2, hb2⟩ = c2 from hg2]
        exact hfc2
      have hfc1 : survivorUpdate m1.clusterID c2 c1
          = { c1 with mentionList := c1.mentionList ++ c2.mentionList } := by
        unfold survivorUpdate
        rw [if_pos]
        simp [hcid1]
      have hfother : ∀ c ∈ s.cluster_list, c ≠ c1 → survivorUpdate m1.clusterID c2 c = c := by
        intro c hc hne1
        unfold survivorUpdate
        rw [if_neg]
        simp only [beq_iff_eq]
        intro hcc
        exact hne1 (cluster_eq_of_id hCID hc hc1 (by rw [← hcc, hcid1]))
      cases hm
      refine ⟨c1, c2, hc1, hc2, hcid1, hcid2, hain, hbin, rfl, ?_, ?_, ?_⟩
      · -- membership characterization
        intro x
        dsimp only
        rw [mem_eraseIdx_nodup hNf hi2' x, hget2]
        constructor
        · rintro ⟨hx, hxne⟩
          obtain ⟨c, hc, rfl⟩ := List.mem_map.mp hx
          by_cases hcc1 : c = c1
          · subst hcc1
            exact Or.inl hfc1
          · rw [hfother c hc hcc1]
            rw [hfother c hc hcc1] at hxne
            exact Or.inr ⟨hc, hcc1, hxne⟩
        · rintro (rfl | ⟨hx, hne1, hne2⟩)
          · constructor
            · rw [← hfc1]
              exact List.mem_map_of_mem _ hc1
            · intro hcon
              have : c1.ID = c2.ID := by
                rw [← hcon]
              rw [hcid1, hcid2] at this
              exact hne this
          · constructor
            · rw [← hfother x hx hne1]
              exact List.mem_map_of_mem _ hx
            · exact hne2
      · -- length
        dsimp only
        rw [List.length_eraseIdx]
        rw [if_pos hi2']
        rw [List.length_map]
        omega
      · -- id uniqueness survives
        dsimp only
        have hsub : List.Sublist
            (((s.cluster_list.map (survivorUpdate m1.clusterID c2)).eraseIdx i2).map Cluster.ID)
            ((s.cluster_list.map (survivorUpdate m1.clusterID c2)).map Cluster.ID) :=
          (List.eraseIdx_sublist _ i2).map Cluster.ID
        exact hsub.nodup (hmapID ▸ hCID)

theorem merge_preserves_inv {s s' : CorefState} (hInv : StoreInv s) {a b : Int}
    (hm : mergeClustersByMentionIDs a b s = some s') : StoreInv s' := by
  cases h1 : dictLookup s.mention_dict a with
  | none => unfold mergeClustersByMentionIDs at hm; rw [h1] at hm; cases hm
  | some m1 =>
    cases h2 : dictLookup s.mention_dict b with
    | none => unfold mergeClustersByMentionIDs at hm; rw [h1, h2] at hm; cases hm
    | some m2 =>
      by_cases heq : m1.clusterID = m2.clusterID
      · unfold mergeClustersByMentionIDs at hm
        rw [h1, h2] at hm
        dsimp only at hm
        rw [if_pos (by simpa using heq)] at hm
        cases hm
        exact hInv
      · obtain ⟨c1, c2, hc1, hc2, hcid1, hcid2, hain, hbin, hdict, hchar, hlen, hnid⟩ :=
          merge_diff_spec hInv h1 h2 heq hm
        obtain ⟨hKeys, hIDk, hCID, hNEm, hMem, hCov, hLink⟩ := hInv
        have hkeys' : s'.mention_dict.map Prod.fst = s.mention_dict.map Prod.fst := by
          rw [hdict]
          exact mapValues_keys _ _
        refine ⟨?_, ?_, hnid, ?_, ?_, ?_, ?_⟩
        · rw [hkeys']; exact hKeys
        · intro p' hp'
          rw [hdict] at hp'
          obtain ⟨p, hp, rfl⟩ := List.mem_map.mp hp'
          dsimp only
          rw [movedUpdate_ID]
          exact hIDk p hp
        · intro c' hc'
          rcases (hchar c').mp hc' with rfl | ⟨hcin, -, -⟩
          · dsimp only
            intro hnil
            rcases List.append_eq_nil.mp hnil with ⟨hn1, -⟩
            exact hNEm c1 hc1 hn1
          · exact hNEm c' hcin
        · intro c' hc' mid hmid
          rw [hkeys']
          rcases (hchar c').mp hc' with rfl | ⟨hcin, -, -⟩
          · dsimp only at hmid
            rcases List.mem_append.mp hmid with hmid1 | hmid2
            · exact hMem c1 hc1 mid hmid1
            · exact hMem c2 hc2 mid hmid2
          · exact hMem c' hcin mid hmid
        · intro p' hp'
          rw [hdict] at hp'
          obtain ⟨p, hp, rfl⟩ := List.mem_map.mp hp'
          obtain ⟨c, hc, hpin⟩ := hCov p hp
          by_cases hcc1 : c = c1
          · refine ⟨{ c1 with mentionList := c1.mentionList ++ c2.mentionList },
              (hchar _).mpr (Or.inl rfl), ?_⟩
            dsimp only
            subst hcc1
            exact List.mem_append.mpr (Or.inl hpin)
          · by_cases hcc2 : c = c2
            · refine ⟨{ c1 with mentionList := c1.mentionList ++ c2.mentionList },
                (hchar _).mpr (Or.inl rfl), ?_⟩
              dsimp only
              subst hcc2
              exact List.mem_append.mpr (Or.inr hpin)
            · exact ⟨c, (hchar c).mpr (Or.inr ⟨hc, hcc1, hcc2⟩), hpin⟩
        · intro p' hp' c' hc'
          rw [hdict] at hp'
          obtain ⟨p, hp, rfl⟩ := List.mem_map.mp hp'
          have hpid : p.2.ID = p.1 := hIDk p hp
          by_cases hP2 : p.1 ∈ c2.mentionList
          · have hmu : movedUpdate c1 c2 p.2 = { p.2 with clusterID := c1.ID } := by
              unfold movedUpdate
              rw [if_pos (by rw [hpid]; exact hP2)]
            have hpcid2 : p.2.clusterID = c2.ID := (hLink p hp c2 hc2).mp hP2
            rcases (hchar c').mp hc' with rfl | ⟨hcin, hne1, hne2⟩
            · dsimp only
              rw [hmu]
              constructor
              · intro _
                rfl
              · intro _
                exact List.mem_append.mpr (Or.inr hP2)
            · dsimp only
              rw [hmu]
              constructor
              · intro hin'
                have h' : p.2.clusterID = c'.ID := (hLink p hp c' hcin).mp hin'
                have hcc : c' = c2 :=
                  cluster_eq_of_id hCID hcin hc2 (by rw [← h', hpcid2])
                exact absurd hcc hne2
              · intro hcid'
                have hcc : c' = c1 :=
                  cluster_eq_of_id hCID hcin hc1 (Eq.symm hcid')
                exact absurd hcc hne1
          · have hmu : movedUpdate c1 c2 p.2 = p.2 := by
              unfold movedUpdate
              rw [if_neg (by rw [hpid]; exact hP2)]
            rcases (hchar c').mp hc' with rfl | ⟨hcin, hne1, hne2⟩
            · dsimp only
              rw [hmu]
              constructor
              · intro hin'
                rcases List.mem_append.mp hin' with h' | h'
                · exact (hLink p hp c1 hc1).mp h'
                · exact absurd h' hP2
              · intro hcid'
                exact List.mem_append.mpr (Or.inl ((hLink p hp c1 hc1).mpr hcid'))
            · rw [hmu]
              exact hLink p hp c' hcin

theorem applyMerges_preserves_inv :
    ∀ (ms : List (Int × Int)) {s s' : CorefState}, StoreInv s →
      applyMerges ms s = some s' → StoreInv s' := by
  intro ms
  induction ms with
  | nil =>
    intro s s' hInv happ
    cases happ
    exact hInv
  | cons ab rest ih =>
    intro s s' hInv happ
    unfold applyMerges at happ
    cases hstep : mergeClustersByMentionIDs ab.1 ab.2 s with
    | none => rw [hstep] at happ; cases happ
    | some s1 =>
      rw [hstep] at happ
      exact ih (merge_preserves_inv hInv hstep) happ

theorem storeInv_partition {s : CorefState} (hInv : StoreInv s) : PartitionOK s := by
  obtain ⟨hKeys, hIDk, hCID, hNEm, hMem, hCov, hLink⟩ := hInv
  refine ⟨?_, hNEm, hMem, ?_⟩
  · intro k hk
    obtain ⟨p, hp, rfl⟩ := List.mem_map.mp hk
    obtain ⟨c, hc, hin⟩ := hCov p hp
    refine ⟨c, hc, hin, ?_⟩
    intro c' hc' hin'
    apply cluster_eq_of_id hCID hc' hc
    rw [← (hLink p hp c' hc').mp hin', (hLink p hp c hc).mp hin]
  · intro p hp c hc hin
    exact (hLink p hp c hc).mp hin

/-- The value update `mention.clusterID = new_cluster.ID` performed by
`initialize_clusters` (the new cluster's id is the mention's own id). -/
def initMention (mention : Mention) : Mention :=
  { mention with clusterID := mention.ID }

/-- The `Cluster(mention.ID)` plus `mentionList.append(mention.ID)`
construction of `initialize_clusters`. -/
def initCluster (mention : Mention) : Cluster :=
  { ID := mention.ID, mentionList := [mention.ID] }

theorem initialize_clusters_inv (md : MDict)
    (hN : (md.map Prod.fst).Nodup) (hID : ∀ p ∈ md, p.2.ID = p.1) :
    StoreInv (initialize_clusters md) := by
  unfold initialize_clusters
  have hids : md.map (fun p => p.2.ID) = md.map Prod.fst :=
    List.map_congr_left (fun p hp => hID p hp)
  refine ⟨?_, ?_, ?_, ?_, ?_, ?_, ?_⟩
  · dsimp only
    rw [mapValues_keys (fun m => { m with clusterID := m.ID })]
    exact hN
  · rintro p' hp'
    dsimp only at hp'
    obtain ⟨p, hp, rfl⟩ := List.mem_map.mp hp'
    exact hID p hp
  · dsimp only
    rw [List.map_map]
    rw [show (Cluster.ID ∘ fun p : Int × Mention =>
        ({ ID := p.2.ID, mentionList := [p.2.ID] } : Cluster))
        = fun p : Int × Mention => p.2.ID from rfl]
    rw [hids]
    exact hN
  · intro c hc
    dsimp only at hc
    obtain ⟨p, hp, rfl⟩ := List.mem_map.mp hc
    simp
  · intro c hc mid hmid
    dsimp only at *
    obtain ⟨p, hp, rfl⟩ := List.mem_map.mp hc
    obtain rfl : mid = p.2.ID := by simpa using hmid
    rw [mapValues_keys (fun m => { m with clusterID := m.ID })]
    rw [hID p hp]
    exact List.mem_map_of_mem Prod.fst hp
  · intro p' hp'
    dsimp only at *
    obtain ⟨p, hp, rfl⟩ := List.mem_map.mp hp'
    refine ⟨{ ID := p.2.ID, mentionList := [p.2.ID] }, List.mem_map_of_mem _ hp, ?_⟩
    simp [hID p hp]
  · intro p' hp' c' hc'
    dsimp only at *
    obtain ⟨p, hp, rfl⟩ := List.mem_map.mp hp'
    obtain ⟨q, hq, rfl⟩ := List.mem_map.mp hc'
    dsimp only
    rw [hID p hp]
    simp

theorem merge_self_cids {s s' : CorefState} (hInv : StoreInv s) {a b : Int}
    (hm : mergeClustersByMentionIDs a b s = some s') :
    ∃ ma mb, dictLookup s'.mention_dict a = some ma ∧
      dictLookup s'.mention_dict b = some mb ∧ ma.clusterID = mb.clusterID := by
  cases h1 : dictLookup s.mention_dict a with
  | none => unfold mergeClustersByMentionIDs at hm; rw [h1] at hm; cases hm
  | some m1 =>
    cases h2 : dictLookup s.mention_dict b with
    | none => unfold mergeClustersByMentionIDs at hm; rw [h1, h2] at hm; cases hm
    | some m2 =>
      by_cases heq : m1.clusterID = m2.clusterID
      · unfold mergeClustersByMentionIDs at hm
        rw [h1, h2] at hm
        dsimp only at hm
        rw [if_pos (by simpa using heq)] at hm
        cases hm
        exact ⟨m1, m2, h1, h2, heq⟩
      · obtain ⟨c1, c2, hc1, hc2, hcid1, hcid2, hain, hbin, hdict, hchar, hlen, hnid⟩ :=
          merge_diff_spec hInv h1 h2 heq hm
        obtain ⟨hKeys, hIDk, hCID, hNEm, hMem, hCov, hLink⟩ := hInv
        have hid1 : m1.ID = a := hIDk (a, m1) (dictLookup_mem h1)
        have hid2 : m2.ID = b := hIDk (b, m2) (dictLookup_mem h2)
        have hnottwo : m1.ID ∉ c2.mentionList := by
          rw [hid1]
          intro hcon
          have h' := (hLink (a, m1) (dictLookup_mem h1) c2 hc2).mp hcon
          rw [hcid2] at h'
          exact heq h'
        have hbtwo : m2.ID ∈ c2.mentionList := by
          rw [hid2]
          exact hbin
        refine ⟨movedUpdate c1 c2 m1, movedUpdate c1 c2 m2, ?_, ?_, ?_⟩
        · rw [hdict, dictLookup_mapValues, h1]; rfl
        · rw [hdict, dictLookup_mapValues, h2]; rfl
        · unfold movedUpdate
          rw [if_neg hnottwo, if_pos hbtwo]
          dsimp only
          exact hcid1.symm

theorem merge_respects_cid_eq {s s' : CorefState} (hInv : StoreInv s) {x y : Int}
    (hm : mergeClustersByMentionIDs x y s = some s') {a b : Int} {ma mb : Mention}
    (ha : dictLookup s.mention_dict a = some ma)
    (hb : dictLookup s.mention_dict b = some mb)
    (heq : ma.clusterID = mb.clusterID) :
    ∃ ma' mb', dictLookup s'.mention_dict a = some ma' ∧
      dictLookup s'.mention_dict b = some mb' ∧ ma'.clusterID = mb'.clusterID := by
  cases h1 : dictLookup s.mention_dict x with
  | none => unfold mergeClustersByMentionIDs at hm; rw [h1] at hm; cases hm
  | some m1 =>
    cases h2 : dictLookup s.mention_dict y with
    | none => unfold mergeClustersByMentionIDs at hm; rw [h1, h2] at hm; cases hm
    | some m2 =>
      by_cases heq12 : m1.clusterID = m2.clusterID
      · unfold mergeClustersByMentionIDs at hm
        rw [h1, h2] at hm
        dsimp only at hm
        rw [if_pos (by simpa using heq12)] at hm
        cases hm
        exact ⟨ma, mb, ha, hb, heq⟩
      · obtain ⟨c1, c2, hc1, hc2, hcid1, hcid2, hain, hbin, hdict, hchar, hlen, hnid⟩ :=
          merge_diff_spec hInv h1 h2 heq12 hm
        obtain ⟨hKeys, hIDk, hCID, hNEm, hMem, hCov, hLink⟩ := hInv
        have hida : ma.ID = a := hIDk (a, ma) (dictLookup_mem ha)
        have hidb : mb.ID = b := hIDk (b, mb) (dictLookup_mem hb)
        refine ⟨movedUpdate c1 c2 ma, movedUpdate c1 c2 mb,
          by rw [hdict, dictLookup_mapValues, ha]; rfl,
          by rw [hdict, dictLookup_mapValues, hb]; rfl, ?_⟩
        have hiff : (ma.ID ∈ c2.mentionList) ↔ (mb.ID ∈ c2.mentionList) := by
          rw [hida, hidb]
          rw [hLink (a, ma) (dictLookup_mem ha) c2 hc2,
            hLink (b, mb) (dictLookup_mem hb) c2 hc2]
          rw [heq]
        unfold movedUpdate
        by_cases hmem : ma.ID ∈ c2.mentionList
        · rw [if_pos hmem, if_pos (hiff.mp hmem)]
        · rw [if_neg hmem, if_neg (fun hc => hmem (hiff.mpr hc))]
          exact heq

theorem applyMerges_respects_cid_eq :
    ∀ (ms : List (Int × Int)) {s s' : CorefState}, StoreInv s →
      applyMerges ms s = some s' →
      ∀ {a b : Int} {ma mb : Mention},
        dictLookup s.mention_dict a = some ma →
        dictLookup s.mention_dict b = some mb →
        ma.clusterID = mb.clusterID →
        ∃ ma' mb', dictLookup s'.mention_dict a = some ma' ∧
          dictLookup s'.mention_dict b = some mb' ∧ ma'.clusterID = mb'.clusterID := by
  intro ms
  induction ms with
  | nil =>
    intro s s' hInv happ a b ma mb ha hb heq
    cases happ
    exact ⟨ma, mb, ha, hb, heq⟩
  | cons ab rest ih =>
    intro s s' hInv happ a b ma mb ha hb heq
    unfold applyMerges at happ
    cases hstep : mergeClustersByMentionIDs ab.1 ab.2 s with
    | none => rw [hstep] at happ; cases happ
    | some s1 =>
      rw [hstep] at happ
      obtain ⟨ma1, mb1, ha1, hb1, heq1⟩ := merge_respects_cid_eq hInv hstep ha hb heq
      exact ih (merge_preserves_inv hInv hstep) happ ha1 hb1 heq1

/-! ### Claims C2, C4, C5, C10 -/

/-- Claim C2: starting from `initialize_clusters` on a well-formed
mention table (unique keys, each mention's `ID` equal to its key), after
any sequence of merge operations the cluster store satisfies the
partition property: every mention id lies in exactly one live cluster,
every live cluster is non-empty, the union of all live clusters'
members is exactly the mention id set, and each mention's `clusterID`
is the id of the cluster containing it. -/
theorem c2_partition_invariant (md : MDict) (ms : List (Int × Int)) (s' : CorefState)
    (hN : (md.map Prod.fst).Nodup) (hID : ∀ p ∈ md, p.2.ID = p.1)
    (happ : applyMerges ms (initialize_clusters md) = some s') :
    PartitionOK s' :=
  storeInv_partition
    (applyMerges_preserves_inv ms (initialize_clusters_inv md hN hID) happ)

/-- A two-mention table shared by the cluster-store witnesses. -/
def twoMentionA : Mention :=
  { ID := 0, sentNum := 0, tokenList := ["hij"], numTokens := 1,
    begin := 0, end_ := 1, type := "Pronoun", clusterID := -1 }

/-- Second mention of the shared two-mention table. -/
def twoMentionB : Mention :=
  { ID := 1, sentNum := 0, tokenList := ["man"], numTokens := 1,
    begin := 1, end_ := 2, type := "NP", clusterID := -1 }

/-- The shared two-mention table. -/
def twoMentionDict : MDict := [(0, twoMentionA), (1, twoMentionB)]

/-- The state after `initialize_clusters` and one merge of mentions 0
and 1: both mentions in cluster 0, a single live cluster. -/
def twoMentionMerged : CorefState :=
  { mention_dict := [(0, { twoMentionA with clusterID := 0 }),
                     (1, { twoMentionB with clusterID := 0 })],
    cluster_list := [{ ID := 0, mentionList := [0, 1] }] }

/-- Claim C2 witness: the partition property holds for the concrete
state reached by initializing two mentions and merging them. -/
theorem c2_witness : PartitionOK twoMentionMerged :=
  c2_partition_invariant twoMentionDict [(0, 1)] twoMentionMerged
    (by decide) (by decide) (by decide)

/-- Claim C4: once `merge(a, b)` has succeeded, after any further
sequence of merge operations the two mentions still carry the same
`clusterID`. -/
theorem c4_merge_monotonic (s s1 s2 : CorefState) (a b : Int) (ms : List (Int × Int))
    (hInv : StoreInv s)
    (hm : mergeClustersByMentionIDs a b s = some s1)
    (hms : applyMerges ms s1 = some s2) :
    ∃ ma mb, dictLookup s2.mention_dict a = some ma ∧
      dictLookup s2.mention_dict b = some mb ∧ ma.clusterID = mb.clusterID := by
  obtain ⟨ma1, mb1, ha1, hb1, heq1⟩ := merge_self_cids hInv hm
  exact applyMerges_respects_cid_eq ms (merge_preserves_inv hInv hm) hms ha1 hb1 heq1

/-- Claim C4 witness: merging mentions 0 and 1 of the two-mention state
and then issuing one further (redundant) merge leaves both with the
same cluster id. -/
theorem c4_witness :
    ∃ ma mb, dictLookup twoMentionMerged.mention_dict 0 = some ma ∧
      dictLookup twoMentionMerged.mention_dict 1 = some mb ∧
      ma.clusterID = mb.clusterID :=
  c4_merge_monotonic (initialize_clusters twoMentionDict) twoMentionMerged
    twoMentionMerged 0 1 [(1, 0)] (by decide) (by decide) (by decide)

/-- Claim C5: a merge of two mentions that already share a cluster is a
silent no-op returning the state unchanged, and consequently performing
the same merge twice in a row yields the same state as performing it
once. -/
theorem c5_merge_noop_idempotent (s : CorefState) (a b : Int) (hInv : StoreInv s) :
    (∀ c ∈ s.cluster_list, a ∈ c.mentionList → b ∈ c.mentionList →
      mergeClustersByMentionIDs a b s = some s) ∧
    (∀ s1, mergeClustersByMentionIDs a b s = some s1 →
      mergeClustersByMentionIDs a b s1 = some s1) := by
  constructor
  · intro c hc hain hbin
    obtain ⟨hKeys, hIDk, hCID, hNEm, hMem, hCov, hLink⟩ := hInv
    have haK : a ∈ s.mention_dict.map Prod.fst := hMem c hc a hain
    have hbK : b ∈ s.mention_dict.map Prod.fst := hMem c hc b hbin
    obtain ⟨ma, hma⟩ := Option.isSome_iff_exists.mp (dictLookup_isSome_iff.mpr haK)
    obtain ⟨mb, hmb⟩ := Option.isSome_iff_exists.mp (dictLookup_isSome_iff.mpr hbK)
    have heq : ma.clusterID = mb.clusterID := by
      rw [(hLink (a, ma) (dictLookup_mem hma) c hc).mp hain,
        (hLink (b, mb) (dictLookup_mem hmb) c hc).mp hbin]
    unfold mergeClustersByMentionIDs
    rw [hma, hmb]
    dsimp only
    rw [if_pos (by simpa using heq)]
  · intro s1 hm
    obtain ⟨ma, mb, hma, hmb, heq⟩ := merge_self_cids hInv hm
    unfold mergeClustersByMentionIDs
    rw [hma, hmb]
    dsimp only
    rw [if_pos (by simpa using heq)]

/-- Claim C5 witness: in the concrete merged two-mention state, where
mentions 0 and 1 share cluster 0, requesting their merge again returns
the state unchanged. -/
theorem c5_witness :
    mergeClustersByMentionIDs 0 1 twoMentionMerged = some twoMentionMerged :=
  (c5_merge_noop_idempotent twoMentionMerged 0 1 (by decide)).1
    { ID := 0, mentionList := [0, 1] } (by decide) (by decide) (by decide)

/-- Claim C10: merging two mentions in distinct clusters removes exactly
one cluster — the one containing `b` — so the live-cluster count drops
by exactly one; the surviving cluster (the one containing `a`) gains
exactly the removed cluster's members; every other cluster keeps its id
and member list; and every mention in neither cluster keeps its entry
(in particular its `clusterID`) unchanged. -/
theorem c10_merge_frame (s : CorefState) (a b : Int) (m1 m2 : Mention)
    (hInv : StoreInv s)
    (h1 : dictLookup s.mention_dict a = some m1)
    (h2 : dictLookup s.mention_dict b = some m2)
    (hne : m1.clusterID ≠ m2.clusterID) :
    ∃ s' c1 c2,
      mergeClustersByMentionIDs a b s = some s' ∧
      c1 ∈ s.cluster_list ∧ c2 ∈ s.cluster_list ∧
      a ∈ c1.mentionList ∧ b ∈ c2.mentionList ∧
      s'.cluster_list.length + 1 = s.cluster_list.length ∧
      c2 ∉ s'.cluster_list ∧
      { c1 with mentionList := c1.mentionList ++ c2.mentionList } ∈ s'.cluster_list ∧
      (∀ c ∈ s.cluster_list, c ≠ c1 → c ≠ c2 → c ∈ s'.cluster_list) ∧
      (∀ p ∈ s.mention_dict, p.1 ∉ c1.mentionList → p.1 ∉ c2.mentionList →
        dictLookup s'.mention_dict p.1 = some p.2) := by
  have hInv' := hInv
  obtain ⟨hKeys, hIDk, hCID, hNEm, hMem, hCov, hLink⟩ := hInv'
  have hf1 : (findClusterByID m1.clusterID s.cluster_list).isSome := by
    obtain ⟨c, hc, hin⟩ := hCov (a, m1) (dictLookup_mem h1)
    exact findClusterByID_isSome
      ⟨c, hc, ((hLink (a, m1) (dictLookup_mem h1) c hc).mp hin).symm⟩
  have hf2 : (findClusterByID m2.clusterID s.cluster_list).isSome := by
    obtain ⟨c, hc, hin⟩ := hCov (b, m2) (dictLookup_mem h2)
    exact findClusterByID_isSome
      ⟨c, hc, ((hLink (b, m2) (dictLookup_mem h2) c hc).mp hin).symm⟩
  obtain ⟨r1, hr1⟩ := Option.isSome_iff_exists.mp hf1
  obtain ⟨r2, hr2⟩ := Option.isSome_iff_exists.mp hf2
  obtain ⟨c1x, i1⟩ := r1
  obtain ⟨c2x, i2⟩ := r2
  have hmsome : ∃ s', mergeClustersByMentionIDs a b s = some s' := by
    unfold mergeClustersByMentionIDs
    rw [h1, h2]
    dsimp only
    rw [if_neg (by simpa using hne)]
    rw [hr1, hr2]
    exact ⟨_, rfl⟩
  obtain ⟨s', hm⟩ := hmsome
  obtain ⟨c1, c2, hc1, hc2, hcid1, hcid2, hain, hbin, hdict, hchar, hlen, hnid⟩ :=
    merge_diff_spec hInv h1 h2 hne hm
  refine ⟨s', c1, c2, hm, hc1, hc2, hain, hbin, hlen, ?_,
    (hchar _).mpr (Or.inl rfl), ?_, ?_⟩
  · intro hcon
    rcases (hchar c2).mp hcon with heq2 | ⟨-, -, hne2⟩
    · have hids : c2.ID = c1.ID := by rw [heq2]
      rw [hcid1, hcid2] at hids
      exact hne hids.symm
    · exact hne2 rfl
  · intro c hc hn1 hn2
    exact (hchar c).mpr (Or.inr ⟨hc, hn1, hn2⟩)
  · intro p hp hnc1 hnc2
    rw [hdict, dictLookup_mapValues, dictLookup_of_mem hKeys hp]
    have hmu : movedUpdate c1 c2 p.2 = p.2 := by
      unfold movedUpdate
      rw [if_neg (by rw [hIDk p hp]; exact hnc2)]
    rw [show (some p.2).map (movedUpdate c1 c2) = some (movedUpdate c1 c2 p.2) from rfl,
      hmu]

/-- Claim C10 witness: the frame property applied to the freshly
initialized two-mention state, merging the two singleton clusters. -/
theorem c10_witness :
    ∃ s' c1 c2,
      mergeClustersByMentionIDs 0 1 (initialize_clusters twoMentionDict) = some s' ∧
      c1 ∈ (initialize_clusters twoMentionDict).cluster_list ∧
      c2 ∈ (initialize_clusters twoMentionDict).cluster_list ∧
      (0 : Int) ∈ c1.mentionList ∧ (1 : Int) ∈ c2.mentionList ∧
      s'.cluster_list.length + 1
        = (initialize_clusters twoMentionDict).cluster_list.length ∧
      c2 ∉ s'.cluster_list ∧
      { c1 with mentionList := c1.mentionList ++ c2.mentionList } ∈ s'.cluster_list ∧
      (∀ c ∈ (initialize_clusters twoMentionDict).cluster_list,
        c ≠ c1 → c ≠ c2 → c ∈ s'.cluster_list) ∧
      (∀ p ∈ (initialize_clusters twoMentionDict).mention_dict,
        p.1 ∉ c1.mentionList → p.1 ∉ c2.mentionList →
        dictLookup s'.mention_dict p.1 = some p.2) :=
  c10_merge_frame (initialize_clusters twoMentionDict) 0 1
    { twoMentionA with clusterID := 0 } { twoMentionB with clusterID := 1 }
    (by decide) (by decide) (by decide) (by decide)

/-! ## Name stitching (`stitch_names`, lines 64-94) -/

/-- The inner `while continueSearch` loop of `stitch_names`: starting
from the current (partially extended) mention, absorb the longest
prefix of the remaining id list whose mentions have `begin` equal to
the current (already extended) `end` and the same `sentNum`; returns
the extended mention and the number of absorbed ids (`inc - 1`); the
absorbed mention's type is not inspected.  `none` models a `KeyError`. -/
def absorbOne (cur lm : Mention) : Mention :=
  { cur with
    end_ := lm.end_,
    numTokens := cur.numTokens + lm.numTokens,
    tokenList := cur.tokenList ++ lm.tokenList }

/-- The body of the inner `while continueSearch` loop, see `absorbOne`. -/
def stitch_lookahead (d : MDict) (cur : Mention) :
    List Int → Option (Mention × Nat)
  | [] => some (cur, 0)
  | lid :: rest =>
    match dictLookup d lid with
    | none => none
    | some lm =>
      if lm.begin == cur.end_ && lm.sentNum == cur.sentNum then
        match stitch_lookahead d (absorbOne cur lm) rest with
        | some r => some (r.1, r.2 + 1)
        | none => none
      else some (cur, 0)

/-- The outer `while idx < len(mention_id_list)` loop of `stitch_names`.
The Python `idx += inc` (skipping the ids just absorbed) is carried as
an explicit skip counter, and the in-place mutation of
`mention_dict[mention_id]` is threaded as a `dictUpdate`. -/
def stitch_go (d : MDict) (skip : Nat) : List Int → Option (List Int × MDict)
  | [] => some ([], d)
  | mention_id :: rest =>
    match skip with
    | s + 1 => stitch_go d s rest
    | 0 =>
      match dictLookup d mention_id with
      | none => none
      | some m =>
        if m.type == "Name" then
          match stitch_lookahead d m rest with
          | none => none
          | some r =>
            match stitch_go (dictUpdate d mention_id r.1) r.2 rest with
            | none => none
            | some r' => some (mention_id :: r'.1, r'.2)
        else
          match stitch_go d 0 rest with
          | none => none
          | some r' => some (mention_id :: r'.1, r'.2)

/-- Function `stitch_names`: run the stitching loop on the whole id list, then
rebuild the mention table keyed by the surviving ids in order
(`{idx : mention_dict[idx] for idx in stitched_mention_id_list}`). -/
def stitch_names (mention_id_list : List Int) (mention_dict : MDict) :
    Option (List Int × MDict) :=
  (stitch_go mention_dict 0 mention_id_list).map (fun r =>
    (r.1, r.1.filterMap (fun i => (dictLookup r.2 i).map (fun m => (i, m)))))

theorem dictUpdate_lookup_ne {d : MDict} {k k' : Int} (m : Mention)
    (h : k ≠ k') : dictLookup (dictUpdate d k m) k' = dictLookup d k' := by
  induction d with
  | nil => rfl
  | cons p rest ih =>
    simp only [dictUpdate, List.map_cons] at ih ⊢
    by_cases hp : p.1 = k
    · rw [if_pos (by simpa using hp)]
      simp only [dictLookup]
      rw [if_neg (by simpa using h),
        if_neg (by simp only [beq_iff_eq]; rw [hp]; exact h)]
      exact ih
    · rw [if_neg (by simpa using hp)]
      simp only [dictLookup]
      by_cases hp' : p.1 = k'
      · rw [if_pos (by simpa using hp'), if_pos (by simpa using hp')]
      · rw [if_neg (by simpa using hp'), if_neg (by simpa using hp')]
        exact ih

theorem dictUpdate_lookup_eq {d : MDict} {k : Int} (m : Mention)
    (h : (dictLookup d k).isSome) :
    dictLookup (dictUpdate d k m) k = some m := by
  induction d with
  | nil => simp [dictLookup] at h
  | cons p rest ih =>
    simp only [dictUpdate, List.map_cons] at ih ⊢
    by_cases hp : p.1 = k
    · rw [if_pos (by simpa using hp)]
      simp only [dictLookup]
      rw [if_pos (by simp)]
    · rw [if_neg (by simpa using hp)]
      simp only [dictLookup]
      rw [if_neg (by simpa using hp)]
      apply ih
      simp only [dictLookup] at h
      rw [if_neg (by simpa using hp)] at h
      exact h

theorem dictUpdate_lookup_isSome {d : MDict} {k k' : Int} (m : Mention) :
    (dictLookup (dictUpdate d k m) k').isSome ↔ (dictLookup d k').isSome := by
  by_cases h : k = k'
  · subst h
    induction d with
    | nil => simp [dictUpdate, dictLookup]
    | cons p rest ih =>
      simp only [dictUpdate, List.map_cons] at ih ⊢
      by_cases hp : p.1 = k
      · rw [if_pos (by simpa using hp)]
        simp only [dictLookup]
        rw [if_pos (by simp), if_pos (by simpa using hp)]
        simp
      · rw [if_neg (by simpa using hp)]
        simp only [dictLookup]
        rw [if_neg (by simpa using hp), if_neg (by simpa using hp)]
        exact ih
  · rw [dictUpdate_lookup_ne m h]

theorem dictUpdate_ends {d : MDict} {k : Int} {m : Mention}
    (hd : ∀ p ∈ d, 1 ≤ p.2.end_) (hm : 1 ≤ m.end_) :
    ∀ p ∈ dictUpdate d k m, 1 ≤ p.2.end_ := by
  intro p hp
  unfold dictUpdate at hp
  obtain ⟨q, hq, rfl⟩ := List.mem_map.mp hp
  split
  · exact hm
  · exact hd q hq

theorem stitch_lookahead_bound {d : MDict} :
    ∀ {xs : List Int} {cur m : Mention} {k : Nat},
      stitch_lookahead d cur xs = some (m, k) → k ≤ xs.length := by
  intro xs
  induction xs with
  | nil =>
    intro cur m k h
    unfold stitch_lookahead at h
    obtain ⟨-, rfl⟩ : cur = m ∧ 0 = k := by simpa [Prod.ext_iff] using h
    exact Nat.zero_le _
  | cons x rest ih =>
    intro cur m k h
    unfold stitch_lookahead at h
    cases hx : dictLookup d x with
    | none => rw [hx] at h; cases h
    | some lm =>
      rw [hx] at h
      dsimp only at h
      split at h
      · cases hr : stitch_lookahead d (absorbOne cur lm) rest with
        | none => rw [hr] at h; cases h
        | some r =>
          rw [hr] at h
          obtain ⟨-, hk⟩ : r.1 = m ∧ r.2 + 1 = k := by simpa [Prod.ext_iff] using h
          have := ih (m := r.1) (k := r.2) (by rw [hr])
          simp only [List.length_cons]
          omega
      · obtain ⟨-, rfl⟩ : cur = m ∧ 0 = k := by simpa [Prod.ext_iff] using h
        exact Nat.zero_le _

theorem stitch_lookahead_isSome {d : MDict} :
    ∀ {xs : List Int} {cur : Mention},
      (∀ x ∈ xs, (dictLookup d x).isSome) →
      (stitch_lookahead d cur xs).isSome := by
  intro xs
  induction xs with
  | nil => intro cur _; simp [stitch_lookahead]
  | cons x rest ih =>
    intro cur hk
    unfold stitch_lookahead
    cases hx : dictLookup d x with
    | none =>
      have := hk x (List.mem_cons_self _ _)
      rw [hx] at this
      cases this
    | some lm =>
      dsimp only
      split
      · have : (stitch_lookahead d (absorbOne cur lm) rest).isSome :=
          ih (fun y hy => hk y (List.mem_cons_of_mem _ hy))
        cases hr : stitch_lookahead d (absorbOne cur lm) rest with
        | none => rw [hr] at this; cases this
        | some r => simp
      · simp

theorem stitch_lookahead_ends {d : MDict} (hd : ∀ p ∈ d, 1 ≤ p.2.end_) :
    ∀ {xs : List Int} {cur m : Mention} {k : Nat}, 1 ≤ cur.end_ →
      stitch_lookahead d cur xs = some (m, k) → 1 ≤ m.end_ := by
  intro xs
  induction xs with
  | nil =>
    intro cur m k hc h
    obtain ⟨rfl, -⟩ : cur = m ∧ 0 = k := by
      simpa [stitch_lookahead, Prod.ext_iff] using h
    exact hc
  | cons x rest ih =>
    intro cur m k hc h
    unfold stitch_lookahead at h
    cases hx : dictLookup d x with
    | none => rw [hx] at h; cases h
    | some lm =>
      rw [hx] at h
      dsimp only at h
      split at h
      · cases hr : stitch_lookahead d (absorbOne cur lm) rest with
        | none => rw [hr] at h; cases h
        | some r =>
          obtain ⟨m1, k1⟩ := r
          rw [hr] at h
          obtain ⟨rfl, -⟩ : m1 = m ∧ k1 + 1 = k := by simpa [Prod.ext_iff] using h
          have hlm : 1 ≤ lm.end_ := hd (x, lm) (dictLookup_mem hx)
          refine ih ?_ hr
          exact hlm
      · obtain ⟨rfl, -⟩ : cur = m ∧ 0 = k := by simpa [Prod.ext_iff] using h
        exact hc

theorem stitch_lookahead_blocked {d : MDict} {aID : Int} {am : Mention}
    (ys : List Int) (haID : dictLookup d aID = some am) (ham : am.begin = 0)
    (hends : ∀ p ∈ d, 1 ≤ p.2.end_) :
    ∀ (xs : List Int) (cur : Mention), 1 ≤ cur.end_ →
      stitch_lookahead d cur (xs ++ aID :: ys) = stitch_lookahead d cur xs := by
  intro xs
  induction xs with
  | nil =>
    intro cur hc
    simp only [List.nil_append]
    unfold stitch_lookahead
    rw [haID]
    dsimp only
    rw [if_neg ?_]
    · rw [ham]
      simp only [Bool.and_eq_true, beq_iff_eq]
      rintro ⟨h0, -⟩
      omega
  | cons x rest ih =>
    intro cur hc
    simp only [List.cons_append]
    unfold stitch_lookahead
    cases hx : dictLookup d x with
    | none => rfl
    | some lm =>
      dsimp only
      split
      · have hlm : 1 ≤ lm.end_ := hends (x, lm) (dictLookup_mem hx)
        rw [ih (absorbOne cur lm) hlm]
      · rfl

theorem stitch_go_sublist :
    ∀ {l : List Int} {d : MDict} {s : Nat} {sl : List Int} {d' : MDict},
      stitch_go d s l = some (sl, d') → List.Sublist sl l := by
  intro l
  induction l with
  | nil =>
    intro d s sl d' h
    obtain ⟨rfl, -⟩ : [] = sl ∧ d = d' := by simpa [stitch_go, Prod.ext_iff] using h
    exact List.nil_sublist []
  | cons x rest ih =>
    intro d s sl d' h
    cases s with
    | succ s' =>
      rw [show stitch_go d (s' + 1) (x :: rest) = stitch_go d s' rest from rfl] at h
      exact List.Sublist.cons x (ih h)
    | zero =>
      unfold stitch_go at h
      cases hx : dictLookup d x with
      | none => rw [hx] at h; cases h
      | some m =>
        rw [hx] at h
        dsimp only at h
        split at h
        · cases hr : stitch_lookahead d m rest with
          | none => rw [hr] at h; cases h
          | some r =>
            obtain ⟨m', k⟩ := r
            rw [hr] at h
            dsimp only at h
            cases hg : stitch_go (dictUpdate d x m') k rest with
            | none => rw [hg] at h; cases h
            | some r' =>
              obtain ⟨sl', d''⟩ := r'
              rw [hg] at h
              obtain ⟨rfl, -⟩ : x :: sl' = sl ∧ d'' = d' := by
                simpa [Prod.ext_iff] using h
              exact List.Sublist.cons₂ x (ih hg)
        · cases hg : stitch_go d 0 rest with
          | none => rw [hg] at h; cases h
          | some r' =>
            obtain ⟨sl', d''⟩ := r'
            rw [hg] at h
            obtain ⟨rfl, -⟩ : x :: sl' = sl ∧ d'' = d' := by
              simpa [Prod.ext_iff] using h
            exact List.Sublist.cons₂ x (ih hg)

theorem stitch_go_isSome :
    ∀ {l : List Int} {d : MDict} {s : Nat},
      (∀ x ∈ l, (dictLookup d x).isSome) → (stitch_go d s l).isSome := by
  intro l
  induction l with
  | nil => intro d s _; simp [stitch_go]
  | cons x rest ih =>
    intro d s hk
    cases s with
    | succ s' =>
      rw [show stitch_go d (s' + 1) (x :: rest) = stitch_go d s' rest from rfl]
      exact ih (fun y hy => hk y (List.mem_cons_of_mem _ hy))
    | zero =>
      unfold stitch_go
      cases hx : dictLookup d x with
      | none =>
        have := hk x (List.mem_cons_self _ _)
        rw [hx] at this
        cases this
      | some m =>
        dsimp only
        split
        · have hla : (stitch_lookahead d m rest).isSome :=
            stitch_lookahead_isSome (fun y hy => hk y (List.mem_cons_of_mem _ hy))
          cases hr : stitch_lookahead d m rest with
          | none => rw [hr] at hla; cases hla
          | some r =>
            obtain ⟨m', k⟩ := r
            dsimp only
            have hgo : (stitch_go (dictUpdate d x m') k rest).isSome :=
              ih (fun y hy => (dictUpdate_lookup_isSome m').mpr
                (hk y (List.mem_cons_of_mem _ hy)))
            cases hg : stitch_go (dictUpdate d x m') k rest with
            | none => rw [hg] at hgo; cases hgo
            | some r' => simp
        · have hgo : (stitch_go d 0 rest).isSome :=
            ih (fun y hy => hk y (List.mem_cons_of_mem _ hy))
          cases hg : stitch_go d 0 rest with
          | none => rw [hg] at hgo; cases hgo
          | some r' => simp

theorem stitch_go_stable :
    ∀ {l : List Int} {d : MDict} {s : Nat} {sl : List Int} {d' : MDict},
      stitch_go d s l = some (sl, d') →
      ∀ k, k ∉ l → dictLookup d' k = dictLookup d k := by
  intro l
  induction l with
  | nil =>
    intro d s sl d' h k _
    obtain ⟨-, rfl⟩ : [] = sl ∧ d = d' := by simpa [stitch_go, Prod.ext_iff] using h
    rfl
  | cons x rest ih =>
    intro d s sl d' h k hk
    have hkx : k ≠ x := fun hkx => hk (hkx ▸ List.mem_cons_self _ _)
    have hkr : k ∉ rest := fun hkr => hk (List.mem_cons_of_mem _ hkr)
    cases s with
    | succ s' =>
      rw [show stitch_go d (s' + 1) (x :: rest) = stitch_go d s' rest from rfl] at h
      exact ih h k hkr
    | zero =>
      unfold stitch_go at h
      cases hx : dictLookup d x with
      | none => rw [hx] at h; cases h
      | some m =>
        rw [hx] at h
        dsimp only at h
        split at h
        · cases hr : stitch_lookahead d m rest with
          | none => rw [hr] at h; cases h
          | some r =>
            obtain ⟨m', kk⟩ := r
            rw [hr] at h
            dsimp only at h
            cases hg : stitch_go (dictUpdate d x m') kk rest with
            | none => rw [hg] at h; cases h
            | some r' =>
              obtain ⟨sl', d''⟩ := r'
              rw [hg] at h
              obtain ⟨-, rfl⟩ : x :: sl' = sl ∧ d'' = d' := by
                simpa [Prod.ext_iff] using h
              rw [ih hg k hkr]
              exact dictUpdate_lookup_ne m' (fun hxk => hkx hxk.symm)
        · cases hg : stitch_go d 0 rest with
          | none => rw [hg] at h; cases h
          | some r' =>
            obtain ⟨sl', d''⟩ := r'
            rw [hg] at h
            obtain ⟨-, rfl⟩ : x :: sl' = sl ∧ d'' = d' := by
              simpa [Prod.ext_iff] using h
            exact ih hg k hkr

theorem stitch_go_ends :
    ∀ {l : List Int} {d : MDict} {s : Nat} {sl : List Int} {d' : MDict},
      (∀ p ∈ d, 1 ≤ p.2.end_) → stitch_go d s l = some (sl, d') →
      ∀ p ∈ d', 1 ≤ p.2.end_ := by
  intro l
  induction l with
  | nil =>
    intro d s sl d' hends h
    obtain ⟨-, rfl⟩ : [] = sl ∧ d = d' := by simpa [stitch_go, Prod.ext_iff] using h
    exact hends
  | cons x rest ih =>
    intro d s sl d' hends h
    cases s with
    | succ s' =>
      rw [show stitch_go d (s' + 1) (x :: rest) = stitch_go d s' rest from rfl] at h
      exact ih hends h
    | zero =>
      unfold stitch_go at h
      cases hx : dictLookup d x with
      | none => rw [hx] at h; cases h
      | some m =>
        rw [hx] at h
        dsimp only at h
        split at h
        · cases hr : stitch_lookahead d m rest with
          | none => rw [hr] at h; cases h
          | some r =>
            obtain ⟨m', kk⟩ := r
            rw [hr] at h
            dsimp only at h
            cases hg : stitch_go (dictUpdate d x m') kk rest with
            | none => rw [hg] at h; cases h
            | some r' =>
              obtain ⟨sl', d''⟩ := r'
              rw [hg] at h
              obtain ⟨-, rfl⟩ : x :: sl' = sl ∧ d'' = d' := by
                simpa [Prod.ext_iff] using h
              have hm' : 1 ≤ m'.end_ :=
                stitch_lookahead_ends hends (hends (x, m) (dictLookup_mem hx)) hr
              exact ih (dictUpdate_ends hends hm') hg
        · cases hg : stitch_go d 0 rest with
          | none => rw [hg] at h; cases h
          | some r' =>
            obtain ⟨sl', d''⟩ := r'
            rw [hg] at h
            obtain ⟨-, rfl⟩ : x :: sl' = sl ∧ d'' = d' := by
              simpa [Prod.ext_iff] using h
            exact ih hends hg

theorem stitch_go_cons_zero (d : MDict) (x : Int) (l : List Int) :
    stitch_go d 0 (x :: l) =
      match dictLookup d x with
      | none => none
      | some m =>
        if m.type == "Name" then
          match stitch_lookahead d m l with
          | none => none
          | some r =>
            match stitch_go (dictUpdate d x r.1) r.2 l with
            | none => none
            | some r' => some (x :: r'.1, r'.2)
        else
          match stitch_go d 0 l with
          | none => none
          | some r' => some (x :: r'.1, r'.2) := rfl

theorem stitch_go_append {aID : Int} {am : Mention} (tys : List Int)
    (hbegin : am.begin = 0) :
    ∀ (pre : List Int) (d : MDict) (s : Nat),
      s ≤ pre.length →
      (∀ x ∈ pre, (dictLookup d x).isSome) →
      (∀ p ∈ d, 1 ≤ p.2.end_) →
      aID ∉ pre →
      dictLookup d aID = some am →
      stitch_go d s (pre ++ aID :: tys)
        = (stitch_go d s pre).bind (fun r =>
            (stitch_go r.2 0 (aID :: tys)).map (fun r2 => (r.1 ++ r2.1, r2.2))) := by
  intro pre
  induction pre with
  | nil =>
    intro d s hs _ _ _ _
    obtain rfl : s = 0 := Nat.le_zero.mp hs
    simp only [List.nil_append]
    rw [show stitch_go d 0 ([] : List Int) = some ([], d) from rfl]
    cases hg : stitch_go d 0 (aID :: tys) with
    | none => simp [hg]
    | some r2 => simp [hg]
  | cons x pre' ih =>
    intro d s hs hkeys hends hnotin haID
    have hxk : (dictLookup d x).isSome := hkeys x (List.mem_cons_self _ _)
    have hkeys' : ∀ y ∈ pre', (dictLookup d y).isSome :=
      fun y hy => hkeys y (List.mem_cons_of_mem _ hy)
    have hnx : aID ≠ x := fun hax => hnotin (hax ▸ List.mem_cons_self _ _)
    have hnotin' : aID ∉ pre' := fun hin => hnotin (List.mem_cons_of_mem _ hin)
    simp only [List.cons_append]
    cases s with
    | succ s' =>
      rw [show stitch_go d (s' + 1) (x :: (pre' ++ aID :: tys))
          = stitch_go d s' (pre' ++ aID :: tys) from rfl,
        show stitch_go d (s' + 1) (x :: pre') = stitch_go d s' pre' from rfl]
      exact ih d s' (Nat.succ_le_succ_iff.mp hs) hkeys' hends hnotin' haID
    | zero =>
      obtain ⟨m, hm⟩ := Option.isSome_iff_exists.mp hxk
      rw [stitch_go_cons_zero d x (pre' ++ aID :: tys), stitch_go_cons_zero d x pre']
      rw [hm]
      dsimp only
      have hmend : 1 ≤ m.end_ := hends (x, m) (dictLookup_mem hm)
      by_cases htype : (m.type == "Name") = true
      · rw [if_pos htype, if_pos htype]
        rw [stitch_lookahead_blocked tys haID hbegin hends pre' m hmend]
        cases hr : stitch_lookahead d m pre' with
        | none => rfl
        | some r =>
          obtain ⟨m', k⟩ := r
          dsimp only
          have hkb : k ≤ pre'.length := stitch_lookahead_bound hr
          have hm' : 1 ≤ m'.end_ := stitch_lookahead_ends hends hmend hr
          rw [ih (dictUpdate d x m') k hkb
            (fun y hy => (dictUpdate_lookup_isSome m').mpr (hkeys' y hy))
            (dictUpdate_ends hends hm') hnotin'
            (by rw [dictUpdate_lookup_ne m' (fun h => hnx h.symm)]; exact haID)]
          cases hgp : stitch_go (dictUpdate d x m') k pre' with
          | none => rfl
          | some r1 =>
            obtain ⟨sl1, d1⟩ := r1
            cases hgt : stitch_go d1 0 (aID :: tys) with
            | none => simp [hgt]
            | some r2 => simp [hgt]
      · rw [if_neg htype, if_neg htype]
        rw [ih d 0 (Nat.zero_le _) hkeys' hends hnotin' haID]
        cases hgp : stitch_go d 0 pre' with
        | none => rfl
        | some r1 =>
          obtain ⟨sl1, d1⟩ := r1
          cases hgt : stitch_go d1 0 (aID :: tys) with
          | none => simp [hgt]
          | some r2 => simp [hgt]

theorem rebuild_lookup_mem {d' : MDict} :
    ∀ {out : List Int}, out.Nodup → ∀ {i : Int} {m : Mention}, i ∈ out →
      dictLookup d' i = some m →
      dictLookup (out.filterMap (fun j => (dictLookup d' j).map (fun mm => (j, mm)))) i
        = some m := by
  intro out
  induction out with
  | nil => intro _ i m h; cases h
  | cons j rest ih =>
    intro hnd i m hmem hl
    rw [List.nodup_cons] at hnd
    simp only [List.filterMap_cons]
    rcases List.mem_cons.mp hmem with rfl | hmem'
    · rw [hl]
      simp only [dictLookup]
      rw [if_pos (by simp)]
    · cases hj : dictLookup d' j with
      | none => exact ih hnd.2 hmem' hl
      | some mj =>
        simp only [dictLookup]
        rw [if_neg ?_]
        · exact ih hnd.2 hmem' hl
        · simp only [beq_iff_eq]
          intro hji
          exact hnd.1 (hji ▸ hmem')

theorem rebuild_lookup_not_mem {d' : MDict} :
    ∀ {out : List Int} {i : Int}, i ∉ out →
      dictLookup (out.filterMap (fun j => (dictLookup d' j).map (fun mm => (j, mm)))) i
        = none := by
  intro out
  induction out with
  | nil => intro i _; rfl
  | cons j rest ih =>
    intro i hni
    have hij : i ≠ j := fun h => hni (h ▸ List.mem_cons_self _ _)
    have hnr : i ∉ rest := fun h => hni (List.mem_cons_of_mem _ h)
    simp only [List.filterMap_cons]
    cases hj : dictLookup d' j with
    | none => exact ih hnr
    | some mj =>
      simp only [dictLookup]
      rw [if_neg (by simpa using fun h => hij h.symm)]
      exact ih hnr

/-! ### Claim C7 -/

/-- A Name mention followed in the list by a non-Name mention that is
begin-adjacent in the same sentence. -/
def c7Name : Mention :=
  { ID := 0, sentNum := 1, tokenList := ["Jan"], numTokens := 1,
    begin := 0, end_ := 1, type := "Name", clusterID := -1 }

/-- The adjacent non-Name mention of the C7 scenario. -/
def c7NP : Mention :=
  { ID := 1, sentNum := 1, tokenList := ["normaal"], numTokens := 1,
    begin := 1, end_ := 2, type := "NP", clusterID := -1 }

/-- The C7 mention table. -/
def c7Dict : MDict := [(0, c7Name), (1, c7NP)]

/-- Claim C7 is false on the code: the begin-adjacent same-sentence
mention of type NP following a Name *is* absorbed by name stitching
(only the current mention's type is checked, never the absorbed one),
so it does not survive stitching. -/
theorem c7_counterexample :
    stitch_names [0, 1] c7Dict
      = some ([0],
          [(0,
            { c7Name with
              end_ := 2,
              numTokens := 2,
              tokenList := ["Jan", "normaal"] })]) ∧
      stitch_names [0, 1] c7Dict ≠ some ([0, 1], [(0, c7Name), (1, c7NP)]) := by
  decide

/-- Claim C7 (amended): during name stitching, a mention of type Name
absorbs the next not-yet-consumed mention exactly when that mention is
in the same sentence and its `begin` equals the current mention's
(possibly already extended) `end` — the absorbed mention's own type is
never checked, so an adjacent same-sentence non-Name mention is
absorbed too; a following mention that fails the adjacency-and-sentence
test survives stitching. -/
theorem c7_stitch_no_type_check (ida idb : Int) (ma mb : Mention)
    (hne : ida ≠ idb) (hName : ma.type = "Name") :
    stitch_names [ida, idb] [(ida, ma), (idb, mb)]
      = if mb.begin = ma.end_ ∧ mb.sentNum = ma.sentNum then
          some ([ida],
            [(ida,
              { ma with
                end_ := mb.end_,
                numTokens := ma.numTokens + mb.numTokens,
                tokenList := ma.tokenList ++ mb.tokenList })])
        else some ([ida, idb], [(ida, ma), (idb, mb)]) := by
  have hba : (idb == ida) = false := by
    simp only [beq_eq_false_iff_ne, ne_eq]
    exact fun h => hne h.symm
  have hab : (ida == idb) = false := by
    simp only [beq_eq_false_iff_ne, ne_eq]
    exact hne
  have hla : dictLookup [(ida, ma), (idb, mb)] ida = some ma := by
    simp [dictLookup]
  have hlib : dictLookup [(ida, ma), (idb, mb)] idb = some mb := by
    simp only [dictLookup]
    rw [if_neg (by simpa using hne), if_pos (by simp)]
  have hupd : ∀ mm : Mention,
      dictUpdate [(ida, ma), (idb, mb)] ida mm = [(ida, mm), (idb, mb)] := by
    intro mm
    simp only [dictUpdate, List.map_cons, List.map_nil]
    rw [if_pos (by simp), if_neg (by simp [hba])]
  by_cases hcond : mb.begin = ma.end_ ∧ mb.sentNum = ma.sentNum
  · rw [if_pos hcond]
    have hbcond : (mb.begin == ma.end_ && mb.sentNum == ma.sentNum) = true := by
      simp [hcond.1, hcond.2]
    set mM : Mention :=
      { ma with
        end_ := mb.end_,
        numTokens := ma.numTokens + mb.numTokens,
        tokenList := ma.tokenList ++ mb.tokenList } with hM
    have hlook : stitch_lookahead [(ida, ma), (idb, mb)] ma [idb] = some (mM, 1) := by
      unfold stitch_lookahead
      rw [hlib]
      dsimp only
      rw [if_pos hbcond]
      rfl
    unfold stitch_names
    rw [stitch_go_cons_zero, hla]
    dsimp only
    rw [if_pos (by simpa using hName), hlook]
    dsimp only
    rw [show stitch_go (dictUpdate [(ida, ma), (idb, mb)] ida mM) 1 [idb]
        = some ([], dictUpdate [(ida, ma), (idb, mb)] ida mM) from rfl]
    dsimp only
    rw [hupd mM]
    have hlf : dictLookup [(ida, mM), (idb, mb)] ida = some mM := by
      simp [dictLookup]
    simp [List.filterMap_cons, hlf]
  · rw [if_neg hcond]
    have hbcond : (mb.begin == ma.end_ && mb.sentNum == ma.sentNum) = false := by
      rw [Bool.and_eq_false_iff]
      by_cases h1 : mb.begin = ma.end_
      · right
        simp only [beq_eq_false_iff_ne, ne_eq]
        exact fun h2 => hcond ⟨h1, h2⟩
      · left
        simp only [beq_eq_false_iff_ne, ne_eq]
        exact h1
    have hlook : stitch_lookahead [(ida, ma), (idb, mb)] ma [idb] = some (ma, 0) := by
      unfold stitch_lookahead
      rw [hlib]
      dsimp only
      rw [if_neg (by rw [hbcond]; exact Bool.false_ne_true)]
    unfold stitch_names
    rw [stitch_go_cons_zero, hla]
    dsimp only
    rw [if_pos (by simpa using hName), hlook]
    dsimp only
    rw [hupd ma, stitch_go_cons_zero, hlib]
    dsimp only
    have hupdb : dictUpdate [(ida, ma), (idb, mb)] idb mb = [(ida, ma), (idb, mb)] := by
      simp only [dictUpdate, List.map_cons, List.map_nil]
      rw [if_neg (by simp [hab]), if_pos (by simp)]
    by_cases hbt : (mb.type == "Name") = true
    · rw [if_pos hbt]
      rw [show stitch_lookahead [(ida, ma), (idb, mb)] mb ([] : List Int)
          = some (mb, 0) from rfl]
      dsimp only
      rw [hupdb]
      rw [show stitch_go [(ida, ma), (idb, mb)] 0 ([] : List Int)
          = some ([], [(ida, ma), (idb, mb)]) from rfl]
      dsimp only
      simp [List.filterMap_cons, hla, hlib]
    · rw [if_neg hbt]
      rw [show stitch_go [(ida, ma), (idb, mb)] 0 ([] : List Int)
          = some ([], [(ida, ma), (idb, mb)]) from rfl]
      dsimp only
      simp [List.filterMap_cons, hla, hlib]

/-- Claim C7 witness: the characterization applied to the concrete
Name-then-NP pair, in which the adjacency condition holds, showing the
non-Name mention is absorbed. -/
theorem c7_witness :
    stitch_names [0, 1] [(0, c7Name), (1, c7NP)]
      = if c7NP.begin = c7Name.end_ ∧ c7NP.sentNum = c7Name.sentNum then
          some ([0],
            [(0,
              { c7Name with
                end_ := c7NP.end_,
                numTokens := c7Name.numTokens + c7NP.numTokens,
                tokenList := c7Name.tokenList ++ c7NP.tokenList })])
        else some ([0, 1], [(0, c7Name), (1, c7NP)]) :=
  c7_stitch_no_type_check 0 1 c7Name c7NP (by decide) (by decide)


/-! ### Claim C6 -/

/-- A one-token Name mention at offset `i` of sentence 0. -/
def c6NameAt (i : Int) (w : String) : Mention :=
  { ID := i, sentNum := 0, tokenList := [w], numTokens := 1,
    begin := i, end_ := i + 1, type := "Name", clusterID := -1 }

/-- Four consecutive Name mentions, spans `[0,1)` .. `[3,4)`. -/
def c6Dict : MDict :=
  [(0, c6NameAt 0 "A"), (1, c6NameAt 1 "B"), (2, c6NameAt 2 "C"),
   (3, c6NameAt 3 "D")]

/-- The single mention stitching produces from `c6Dict`. -/
def c6Merged : Mention :=
  { ID := 0, sentNum := 0, tokenList := ["A", "B", "C", "D"], numTokens := 4,
    begin := 0, end_ := 4, type := "Name", clusterID := -1 }

/-- Claim C6 is false on the code as universally stated: a mention list
that contains three consecutive Name mentions with spans `[0,1)`,
`[1,2)`, `[2,3)` of the same sentence but continues with a fourth
adjacent Name `[3,4)` keeps stitching, so the surviving mention spans
`[0,4)` with token count 4 — not `[0,3)` with token count 3. -/
theorem c6_counterexample :
    stitch_names [0, 1, 2, 3] c6Dict = some ([0], [(0, c6Merged)]) ∧
      c6Merged.end_ = 4 ∧ c6Merged.numTokens = 4 ∧
      ¬(c6Merged.end_ = 3 ∧ c6Merged.numTokens = 3) := by
  decide

/-- Claim C6 (amended): in every well-formed mention list (distinct
ids, every id a table key, every mention ending at offset at least 1)
containing three consecutive Name mentions with spans `[0,1)`, `[1,2)`,
`[2,3)` (one token each) of the same sentence, where the mention after
the three (if any) does not begin at offset 3 in that sentence, name
stitching yields exactly one surviving mention in their place: the
first, now spanning `[0,3)` with token count 3 and the three token
lists concatenated in order; the second and third are removed from both
the output list and the table. -/
theorem c6_stitch_three_names (pre post : List Int) (aID bID cID : Int)
    (d : MDict) (ma mb mc : Mention) (sn : Int)
    (hNd : (pre ++ aID :: bID :: cID :: post).Nodup)
    (hkeys : ∀ x ∈ pre ++ aID :: bID :: cID :: post, (dictLookup d x).isSome)
    (hends : ∀ p ∈ d, 1 ≤ p.2.end_)
    (hma : dictLookup d aID = some ma) (hmb : dictLookup d bID = some mb)
    (hmc : dictLookup d cID = some mc)
    (hat : ma.type = "Name") (hbt : mb.type = "Name") (hct : mc.type = "Name")
    (hasn : ma.sentNum = sn) (hbsn : mb.sentNum = sn) (hcsn : mc.sentNum = sn)
    (hab : ma.begin = 0) (hae : ma.end_ = 1) (han : ma.numTokens = 1)
    (hbb : mb.begin = 1) (hbe : mb.end_ = 2) (hbn : mb.numTokens = 1)
    (hcb : mc.begin = 2) (hce : mc.end_ = 3) (hcn : mc.numTokens = 1)
    (hpost : ∀ pID mp, post.head? = some pID → dictLookup d pID = some mp →
      ¬(mp.begin = 3 ∧ mp.sentNum = sn)) :
    ∃ out dOut,
      stitch_names (pre ++ aID :: bID :: cID :: post) d = some (out, dOut) ∧
      out.count aID = 1 ∧ bID ∉ out ∧ cID ∉ out ∧
      dictLookup dOut aID = some
        { ma with
          end_ := 3,
          numTokens := 3,
          tokenList := ma.tokenList ++ mb.tokenList ++ mc.tokenList } ∧
      dictLookup dOut bID = none ∧ dictLookup dOut cID = none := by
  have hsplit := List.nodup_append.mp hNd
  have htailN : (aID :: bID :: cID :: post).Nodup := hsplit.2.1
  have hdis := hsplit.2.2
  have haT : aID ∈ aID :: bID :: cID :: post := List.mem_cons_self _ _
  have hbT : bID ∈ aID :: bID :: cID :: post := by simp
  have hcT : cID ∈ aID :: bID :: cID :: post := by simp
  have hanp : aID ∉ pre := fun h => hdis h haT
  have hbnp : bID ∉ pre := fun h => hdis h hbT
  have hcnp : cID ∉ pre := fun h => hdis h hcT
  rw [List.nodup_cons] at htailN
  have haRest := htailN.1
  have htailN2 := htailN.2
  rw [List.nodup_cons] at htailN2
  have hbRest := htailN2.1
  have htailN3 := htailN2.2
  rw [List.nodup_cons] at htailN3
  have hcRest := htailN3.1
  have hanpost : aID ∉ post := fun h => haRest (by simp [h])
  have hbnpost : bID ∉ post := fun h => hbRest (by simp [h])
  have hcnpost : cID ∉ post := fun h => hcRest (by simp [h])
  have hba : bID ≠ aID := fun h => haRest (by simp [h.symm])
  have hca : cID ≠ aID := fun h => haRest (by simp [h.symm])
  have hpostpre : ∀ x ∈ post, x ∉ pre := by
    intro x hx hxp
    exact hdis hxp (by simp [hx])
  have hkeyspre : ∀ x ∈ pre, (dictLookup d x).isSome :=
    fun x hx => hkeys x (List.mem_append_left _ hx)
  have happ := stitch_go_append (bID :: cID :: post) hab pre d 0 (Nat.zero_le _)
    hkeyspre hends hanp hma
  have hpreSome : (stitch_go d 0 pre).isSome := stitch_go_isSome hkeyspre
  obtain ⟨r1, hgp⟩ := Option.isSome_iff_exists.mp hpreSome
  obtain ⟨sl1, d1⟩ := r1
  have hstab := stitch_go_stable hgp
  have hd1ends : ∀ p ∈ d1, 1 ≤ p.2.end_ := stitch_go_ends hends hgp
  have hd1a : dictLookup d1 aID = some ma := by rw [hstab aID hanp]; exact hma
  have hd1b : dictLookup d1 bID = some mb := by rw [hstab bID hbnp]; exact hmb
  have hd1c : dictLookup d1 cID = some mc := by rw [hstab cID hcnp]; exact hmc
  have hblock : stitch_lookahead d1 (absorbOne (absorbOne ma mb) mc) post
      = some (absorbOne (absorbOne ma mb) mc, 0) := by
    cases hp : post with
    | nil => rfl
    | cons pID post' =>
      have hpID : pID ∈ post := by rw [hp]; exact List.mem_cons_self _ _
      have hpk : (dictLookup d pID).isSome :=
        hkeys pID (List.mem_append_right _ (by simp [hpID]))
      obtain ⟨mp, hmp⟩ := Option.isSome_iff_exists.mp hpk
      have hd1p : dictLookup d1 pID = some mp := by
        rw [hstab pID (hpostpre pID hpID)]; exact hmp
      have hnabs := hpost pID mp (by rw [hp]; rfl) hmp
      unfold stitch_lookahead
      rw [hd1p]
      dsimp only
      rw [if_neg ?hcnd]
      case hcnd =>
        simp only [Bool.and_eq_true, beq_iff_eq]
        rintro ⟨h1, h2⟩
        exact hnabs ⟨hce ▸ (h1 : mp.begin = mc.end_),
          hasn ▸ (h2 : mp.sentNum = ma.sentNum)⟩
  have hlook : stitch_lookahead d1 ma (bID :: cID :: post)
      = some (absorbOne (absorbOne ma mb) mc, 2) := by
    unfold stitch_lookahead
    rw [hd1b]
    dsimp only
    rw [if_pos ?hcb1]
    case hcb1 =>
      simp only [Bool.and_eq_true, beq_iff_eq]
      exact ⟨by rw [hbb, hae], by rw [hbsn, hasn]⟩
    unfold stitch_lookahead
    rw [hd1c]
    dsimp only
    rw [if_pos ?hcb2]
    case hcb2 =>
      simp only [Bool.and_eq_true, beq_iff_eq]
      exact ⟨(by rw [hcb, hbe] : mc.begin = mb.end_),
        (by rw [hcsn, hasn] : mc.sentNum = ma.sentNum)⟩
    rw [hblock]
  have hd2some : ∀ x ∈ post,
      (dictLookup (dictUpdate d1 aID (absorbOne (absorbOne ma mb) mc)) x).isSome := by
    intro x hx
    rw [dictUpdate_lookup_isSome]
    rw [hstab x (hpostpre x hx)]
    exact hkeys x (List.mem_append_right _ (by simp [hx]))
  have hgtSome : (stitch_go (dictUpdate d1 aID (absorbOne (absorbOne ma mb) mc))
      0 post).isSome := stitch_go_isSome hd2some
  obtain ⟨r2, hgt⟩ := Option.isSome_iff_exists.mp hgtSome
  obtain ⟨slp, dp⟩ := r2
  have hgotail : stitch_go d1 0 (aID :: bID :: cID :: post)
      = some (aID :: slp, dp) := by
    rw [stitch_go_cons_zero, hd1a]
    dsimp only
    rw [if_pos (by simpa using hat), hlook]
    dsimp only
    rw [show stitch_go (dictUpdate d1 aID (absorbOne (absorbOne ma mb) mc)) 2
        (bID :: cID :: post)
        = stitch_go (dictUpdate d1 aID (absorbOne (absorbOne ma mb) mc)) 0 post
        from rfl]
    rw [hgt]
  have hfull : stitch_go d 0 (pre ++ aID :: bID :: cID :: post)
      = some (sl1 ++ aID :: slp, dp) := by
    rw [happ, hgp]
    simp [hgotail]
  have hsl1 : List.Sublist sl1 pre := stitch_go_sublist hgp
  have hslp : List.Sublist slp post := stitch_go_sublist hgt
  have houtN : (sl1 ++ aID :: slp).Nodup := by
    have hsub : List.Sublist (sl1 ++ aID :: slp)
        (pre ++ aID :: bID :: cID :: post) := by
      refine List.Sublist.append hsl1 ?_
      refine List.Sublist.cons₂ _ ?_
      exact List.Sublist.cons _ (List.Sublist.cons _ hslp)
    exact hsub.nodup hNd
  have haout : aID ∈ sl1 ++ aID :: slp :=
    List.mem_append_right _ (List.mem_cons_self _ _)
  have hcount : (sl1 ++ aID :: slp).count aID = 1 := by
    have h1 : sl1.count aID = 0 :=
      List.count_eq_zero.mpr (fun h => hanp (hsl1.subset h))
    have h2 : slp.count aID = 0 :=
      List.count_eq_zero.mpr (fun h => hanpost (hslp.subset h))
    simp [List.count_append, h1, h2]
  have hbout : bID ∉ sl1 ++ aID :: slp := by
    intro h
    rcases List.mem_append.mp h with h | h
    · exact hbnp (hsl1.subset h)
    · rcases List.mem_cons.mp h with h | h
      · exact hba h
      · exact hbnpost (hslp.subset h)
  have hcout : cID ∉ sl1 ++ aID :: slp := by
    intro h
    rcases List.mem_append.mp h with h | h
    · exact hcnp (hsl1.subset h)
    · rcases List.mem_cons.mp h with h | h
      · exact hca h
      · exact hcnpost (hslp.subset h)
  have hdpa : dictLookup dp aID = some (absorbOne (absorbOne ma mb) mc) := by
    rw [stitch_go_stable hgt aID hanpost]
    exact dictUpdate_lookup_eq _ (by rw [hd1a]; rfl)
  have hrec : absorbOne (absorbOne ma mb) mc
      = { ma with
          end_ := 3,
          numTokens := 3,
          tokenList := ma.tokenList ++ mb.tokenList ++ mc.tokenList } := by
    simp [absorbOne, hce, han, hbn, hcn]
  refine ⟨sl1 ++ aID :: slp,
    (sl1 ++ aID :: slp).filterMap (fun i => (dictLookup dp i).map (fun m => (i, m))),
    ?_, hcount, hbout, hcout, ?_, ?_, ?_⟩
  · unfold stitch_names
    rw [hfull]
    rfl
  · rw [rebuild_lookup_mem houtN haout hdpa, hrec]
  · exact rebuild_lookup_not_mem hbout
  · exact rebuild_lookup_not_mem hcout

/-- Exactly three consecutive Name mentions (the canonical acceptance
scenario for stitching), spans `[0,1)`, `[1,2)`, `[2,3)`. -/
def c6wDict : MDict :=
  [(0, c6NameAt 0 "A"), (1, c6NameAt 1 "B"), (2, c6NameAt 2 "C")]

/-- Claim C6 witness: the amended stitching theorem on the concrete
three-Name document: one mention survives spanning `[0,3)` with token
count 3, ids 1 and 2 disappear from list and table. -/
theorem c6_witness :
    ∃ out dOut,
      stitch_names ([] ++ 0 :: 1 :: 2 :: []) c6wDict = some (out, dOut) ∧
      out.count 0 = 1 ∧ (1 : Int) ∉ out ∧ (2 : Int) ∉ out ∧
      dictLookup dOut 0 = some
        { c6NameAt 0 "A" with
          end_ := 3,
          numTokens := 3,
          tokenList := (c6NameAt 0 "A").tokenList ++ (c6NameAt 1 "B").tokenList
            ++ (c6NameAt 2 "C").tokenList } ∧
      dictLookup dOut 1 = none ∧ dictLookup dOut 2 = none :=
  c6_stitch_three_names [] [] 0 1 2 c6wDict (c6NameAt 0 "A") (c6NameAt 1 "B")
    (c6NameAt 2 "C") 0 (by decide) (by decide) (by decide) (by decide) (by decide)
    (by decide) (by decide) (by decide) (by decide) (by decide) (by decide)
    (by decide) (by decide) (by decide) (by decide) (by decide) (by decide)
    (by decide) (by decide) (by decide) (by decide) (fun _ _ h => nomatch h)

/-! ## Parse trees and the NP detection rule (`make_mention` lines 119-131,
`detect_mentions` NP branch lines 146-157) -/

/-- The attribute bag of an Alpino parse-tree node, restricted to the
four attributes the mention detector reads (`word`, `pos`, `begin`,
`end`); `none` models absence of the attribute from `node.attrib`. -/
structure XAttrs where
  word : Option String
  pos : Option String
  begin : Option Int
  end_ : Option Int
deriving DecidableEq, Repr

mutual
/-- A parse-tree node: its attributes and its child nodes. -/
inductive XTree where
  | node : XAttrs → XForest → XTree

/-- A list of sibling parse-tree nodes (kept mutual with `XTree` so
that the traversal below is structurally recursive). -/
inductive XForest where
  | nil : XForest
  | cons : XTree → XForest → XForest
end

def XTree.attrs : XTree → XAttrs
  | .node a _ => a

mutual
/-- Model of `mention_node.iter()`: the node itself followed by all of
its descendants in document (preorder) order. -/
def iterNodes : XTree → List XTree
  | .node a cs => XTree.node a cs :: iterForest cs

def iterForest : XForest → List XTree
  | .nil => []
  | .cons t ts => iterNodes t ++ iterForest ts
end

/-- Model of `make_mention(mention_node, mention_type, sentNum)` (lines
119-131): reads the node's `begin`/`end` attributes (a missing one
raises `KeyError`, modelled as `none`), sets the span, token count
`end - begin`, sentence number, and collects the `word` attribute of
every node in the subtree into the token list.  The global `mentionID`
counter is passed explicitly. -/
def make_mention (mention_node : XTree) (mention_type : String) (sentNum : Int)
    (mentionID : Int) : Option Mention :=
  match mention_node.attrs.begin, mention_node.attrs.end_ with
  | some b, some e =>
    some { ID := mentionID,
           sentNum := sentNum,
           tokenList := (iterNodes mention_node).filterMap (fun n => n.attrs.word),
           numTokens := e - b,
           begin := b,
           end_ := e,
           type := mention_type,
           clusterID := -1 }
  | _, _ => none

/-- One iteration of the NP word loop (lines 149-156): a node without
a `word` attribute is skipped; otherwise, if it is an adverb whose
`begin` equals the mention's current `begin`, the mention is trimmed
(begin advanced, token count decremented, word not appended; a missing
`begin` attribute on such a node raises `KeyError`, modelled as
`none`); otherwise the word is appended. -/
def np_step (new_ment : Mention) (node : XTree) : Option Mention :=
  match node.attrs.word with
  | none => some new_ment
  | some w =>
    if node.attrs.pos == some "adv" then
      match node.attrs.begin with
      | none => none
      | some nb =>
        if nb == new_ment.begin then
          some { new_ment with
                 begin := new_ment.begin + 1,
                 numTokens := new_ment.numTokens - 1 }
        else some { new_ment with tokenList := new_ment.tokenList ++ [w] }
    else some { new_ment with tokenList := new_ment.tokenList ++ [w] }

/-- The NP branch of `detect_mentions` (lines 146-157): build the
mention with `make_mention`, reset its token list, then run the word
loop over the subtree in document order. -/
def detect_np_mention (mention_node : XTree) (sentNum : Int)
    (mentionID : Int) : Option Mention :=
  match make_mention mention_node "NP" sentNum mentionID with
  | none => none
  | some new_ment =>
    (iterNodes mention_node).foldlM np_step { new_ment with tokenList := [] }

/-- The word-bearing nodes of a list occupy consecutive `begin`
offsets starting at `b`. -/
def consecFrom (b : Int) : List XTree → Prop
  | [] => True
  | n :: ns => n.attrs.begin = some b ∧ n.attrs.word.isSome ∧ consecFrom (b + 1) ns

instance consecFromDec : (b : Int) → (l : List XTree) → Decidable (consecFrom b l)
  | _, [] => isTrue trivial
  | b, _ :: ns =>
    have : Decidable (consecFrom (b + 1) ns) := consecFromDec (b + 1) ns
    inferInstanceAs (Decidable (_ ∧ _ ∧ _))

/-- Nodes without a `word` attribute are invisible to the NP word
loop: folding `np_step` over a node list equals folding it over the
word-bearing sublist. -/
theorem np_fold_filter : ∀ (ns : List XTree) (cur : Mention),
    ns.foldlM np_step cur
      = (ns.filter (fun n => n.attrs.word.isSome)).foldlM np_step cur := by
  intro ns
  induction ns with
  | nil => intro cur; rfl
  | cons n ns ih =>
    intro cur
    cases hwn : n.attrs.word with
    | none =>
      have hstep : np_step cur n = some cur := by
        unfold np_step; rw [hwn]
      have hfilt : (n :: ns).filter (fun n => n.attrs.word.isSome)
          = ns.filter (fun n => n.attrs.word.isSome) := by
        rw [List.filter_cons_of_neg (by simp [hwn])]
      rw [hfilt, List.foldlM_cons, hstep]
      exact ih cur
    | some w =>
      have hfilt : (n :: ns).filter (fun n => n.attrs.word.isSome)
          = n :: ns.filter (fun n => n.attrs.word.isSome) := by
        rw [List.filter_cons_of_pos (by simp [hwn])]
      rw [hfilt, List.foldlM_cons, List.foldlM_cons]
      cases hstep : np_step cur n with
      | none => rfl
      | some cur' => exact ih cur'

/-- Once the mention's current `begin` is strictly below every
remaining word node's offset, the adverb test can never fire again:
the rest of the loop appends every remaining word. -/
theorem np_fold_append_all : ∀ (wl : List XTree) (cur : Mention) (b : Int),
    cur.begin < b → consecFrom b wl →
    wl.foldlM np_step cur
      = some { cur with
               tokenList := cur.tokenList ++ wl.filterMap (fun n => n.attrs.word) } := by
  intro wl
  induction wl with
  | nil =>
    intro cur b _ _
    simp [List.foldlM]
  | cons n wl ih =>
    intro cur b hlt hcons
    obtain ⟨hnb, hnw, hcons'⟩ := hcons
    obtain ⟨w, hw⟩ := Option.isSome_iff_exists.mp hnw
    have hstep : np_step cur n
        = some { cur with tokenList := cur.tokenList ++ [w] } := by
      unfold np_step
      rw [hw]
      dsimp only
      by_cases hadv : n.attrs.pos == some "adv"
      · rw [if_pos hadv, hnb]
        dsimp only
        have : ¬ ((b == cur.begin) = true) := by
          simp only [beq_iff_eq]
          omega
        rw [if_neg this]
      · rw [if_neg hadv]
    rw [List.foldlM_cons, hstep]
    have hbind : (some { cur with tokenList := cur.tokenList ++ [w] }
          >>= fun x => wl.foldlM np_step x)
        = wl.foldlM np_step { cur with tokenList := cur.tokenList ++ [w] } := rfl
    rw [hbind, ih _ (b + 1) (by show cur.begin < b + 1; omega) hcons']
    simp [List.filterMap_cons, hw, List.append_assoc]

/-- The NP word loop on a consecutive run of word nodes: the maximal
leading run of adverbs is trimmed (each one advances `begin` and
decrements the token count), and every word after that run is
appended. -/
theorem np_fold_run : ∀ (wl : List XTree) (cur : Mention),
    consecFrom cur.begin wl →
    wl.foldlM np_step cur
      = some { cur with
               begin := cur.begin
                 + ((wl.takeWhile (fun n => n.attrs.pos == some "adv")).length : Int),
               numTokens := cur.numTokens
                 - ((wl.takeWhile (fun n => n.attrs.pos == some "adv")).length : Int),
               tokenList := cur.tokenList
                 ++ ((wl.drop
                       (wl.takeWhile (fun n => n.attrs.pos == some "adv")).length).filterMap
                     (fun n => n.attrs.word)) } := by
  intro wl
  induction wl with
  | nil =>
    intro cur _
    simp [List.foldlM]
  | cons n wl ih =>
    intro cur hcons
    obtain ⟨hnb, hnw, hcons'⟩ := hcons
    obtain ⟨w, hw⟩ := Option.isSome_iff_exists.mp hnw
    by_cases hadv : n.attrs.pos == some "adv"
    · -- leading adverb: trimmed, run extends
      have hstep : np_step cur n
          = some { cur with
                   begin := cur.begin + 1,
                   numTokens := cur.numTokens - 1 } := by
        unfold np_step
        rw [hw]
        dsimp only
        rw [if_pos hadv, hnb]
        dsimp only
        rw [if_pos (by simp)]
      rw [List.foldlM_cons, hstep]
      have hbind : (some { cur with
              begin := cur.begin + 1,
              numTokens := cur.numTokens - 1 }
            >>= fun x => wl.foldlM np_step x)
          = wl.foldlM np_step { cur with
              begin := cur.begin + 1,
              numTokens := cur.numTokens - 1 } := rfl
      rw [hbind, ih _ hcons']
      have htw : List.takeWhile (fun n => n.attrs.pos == some "adv") (n :: wl)
          = n :: List.takeWhile (fun n => n.attrs.pos == some "adv") wl :=
        List.takeWhile_cons_of_pos hadv
      rw [htw, List.length_cons, List.drop_succ_cons]
      simp only [Option.some.injEq, Mention.mk.injEq, List.length_cons,
        eq_self_iff_true, true_and, and_true]
      push_cast
      constructor <;> ring
    · -- first non-adverb word: the run stops, everything is appended
      have hstep : np_step cur n
          = some { cur with tokenList := cur.tokenList ++ [w] } := by
        unfold np_step
        rw [hw]
        dsimp only
        rw [if_neg hadv]
      rw [List.foldlM_cons, hstep]
      have hbind : (some { cur with tokenList := cur.tokenList ++ [w] }
            >>= fun x => wl.foldlM np_step x)
          = wl.foldlM np_step { cur with tokenList := cur.tokenList ++ [w] } := rfl
      rw [hbind,
        np_fold_append_all wl _ (cur.begin + 1)
          (by show cur.begin < cur.begin + 1; omega) hcons']
      have htw : List.takeWhile (fun n => n.attrs.pos == some "adv") (n :: wl)
          = [] :=
        List.takeWhile_cons_of_neg (by simpa using hadv)
      rw [htw]
      simp [List.filterMap_cons, hw, List.append_assoc]

/-- A leaf word node for the C9 scenarios: surface form `w`, part of
speech `p`, occupying offset `[b, b+1)`. -/
def c9Leaf (w p : String) (b : Int) : XTree :=
  XTree.node { word := some w, pos := some p, begin := some b, end_ := some (b + 1) }
    XForest.nil

/-- An NP node spanning `[0,3)` whose first two tokens are adverbs at
offsets 0 and 1 and whose third token is a noun. -/
def c9Tree : XTree :=
  XTree.node { word := none, pos := none, begin := some 0, end_ := some 3 }
    (XForest.cons (c9Leaf "niet" "adv" 0)
      (XForest.cons (c9Leaf "eens" "adv" 1)
        (XForest.cons (c9Leaf "thuis" "noun" 2) XForest.nil)))

/-- Claim C9 counterexample: for the NP node spanning `[0,3)` whose
first token is the adverb "niet" at the node's begin offset 0 (followed
by the adverb "eens" and the noun "thuis"), the extracted mention has
begin 2 and token count 1 — the begin advanced by 2 and the count
decremented by 2, not "by exactly 1" as the claim states: after the
first trim the mention's begin moves onto the second adverb, which is
then trimmed as well. -/
theorem c9_counterexample :
    (detect_np_mention c9Tree 0 7).map (fun m => (m.begin, m.numTokens, m.tokenList))
      = some (2, 1, ["thuis"]) ∧
    (some ((2 : Int), (1 : Int)) : Option (Int × Int)) ≠ some (0 + 1, (3 - 0) - 1) := by
  decide

/-- Claim C9 (amended): for every NP node with span attributes
`[b0, e0)` whose word-bearing subtree nodes occupy consecutive offsets
starting at `b0`, the extracted NP mention trims the maximal LEADING
RUN of adverbs (length `r`): its begin is `b0 + r`, its token count is
`(e0 - b0) - r`, and its token list is exactly the words after that
run (so no trimmed adverb's surface word appears in it).  With `r = 0`
— an NP not starting with an adverb — the node's begin and full token
count are kept, and with a single leading adverb `r = 1` this is the
claimed advance/decrement by exactly 1. -/
theorem c9_np_adv_trim (mention_node : XTree) (sentNum mentionID b0 e0 : Int)
    (wl : List XTree) (r : Nat)
    (hb : mention_node.attrs.begin = some b0)
    (he : mention_node.attrs.end_ = some e0)
    (hwl : wl = (iterNodes mention_node).filter (fun n => n.attrs.word.isSome))
    (hcons : consecFrom b0 wl)
    (hr : r = (wl.takeWhile (fun n => n.attrs.pos == some "adv")).length) :
    detect_np_mention mention_node sentNum mentionID = some
      { ID := mentionID,
        sentNum := sentNum,
        tokenList := (wl.drop r).filterMap (fun n => n.attrs.word),
        numTokens := (e0 - b0) - (r : Int),
        begin := b0 + (r : Int),
        end_ := e0,
        type := "NP",
        clusterID := -1 } := by
  subst hwl
  subst hr
  unfold detect_np_mention make_mention
  rw [hb, he]
  dsimp only
  rw [np_fold_filter]
  rw [np_fold_run _ _ hcons]
  rfl

/-- An NP node spanning `[5,8)` with exactly one leading adverb
("ook"), then a determiner and a noun. -/
def c9wTree : XTree :=
  XTree.node { word := none, pos := none, begin := some 5, end_ := some 8 }
    (XForest.cons (c9Leaf "ook" "adv" 5)
      (XForest.cons (c9Leaf "de" "det" 6)
        (XForest.cons (c9Leaf "man" "noun" 7) XForest.nil)))

/-- Claim C9 witness: the amended theorem at a concrete NP with one
leading adverb (`r = 1`): begin `5 + 1 = 6`, token count
`(8 - 5) - 1 = 2`, token list the two words after the adverb. -/
theorem c9_witness :
    ((5 : Int) + ((1 : Nat) : Int) = 6 ∧ ((8 : Int) - 5 - ((1 : Nat) : Int) = 2)) ∧
    detect_np_mention c9wTree 4 11 = some
      { ID := 11,
        sentNum := 4,
        tokenList := ((((iterNodes c9wTree).filter
            (fun n => n.attrs.word.isSome)).drop 1).filterMap (fun n => n.attrs.word)),
        numTokens := (8 - 5) - ((1 : Nat) : Int),
        begin := 5 + ((1 : Nat) : Int),
        end_ := 8,
        type := "NP",
        clusterID := -1 } :=
  ⟨by decide,
   c9_np_adv_trim c9wTree 4 11 5 8
     ((iterNodes c9wTree).filter (fun n => n.attrs.word.isSome)) 1
     (by decide) (by decide) rfl (by decide) (by decide)⟩
